import Mathlib

set_option linter.unusedVariables false
set_option maxRecDepth 8000

namespace Croncheck

/-- One closed interval clause of a field matcher (`CronRange` in `src/types.ts`). -/
structure CronRange where
  «from» : Int
  «to» : Int
deriving Repr, DecidableEq

/-- One step clause `(from, to, step)` of a field matcher (`CronStep` in `src/types.ts`).
`step` is `none` when the source stored JavaScript `NaN` (from `Number.parseInt` on a
non-numeric step token); every arithmetic comparison against `NaN` is false. -/
structure CronStep where
  «from» : Int
  «to» : Int
  step : Option Int
deriving Repr, DecidableEq

/-- One `day#instance` clause (`CronNth` in `src/types.ts`). `instance` is `none` for `NaN`. -/
structure CronNth where
  day_of_week : Int
  inst : Option Int
deriving Repr, DecidableEq

/-- A field matcher (`CronMatch` in `src/types.ts`). The source uses optional fields;
an absent array and an empty array behave identically in every consumer (`?.length`,
`.includes`, `length > 0` guards), so both are modelled as `[]`, and absent booleans as
`false`. `nearestWeekdays` entries are `none` when the source stored `NaN`. -/
structure CronMatch where
  all : Bool := false
  «omit» : Bool := false
  ranges : List CronRange := []
  steps : List CronStep := []
  nthDays : List CronNth := []
  values : List Int := []
  lastDay : Bool := false
  lastDays : List Int := []
  lastWeekday : Bool := false
  nearestWeekdays : List (Option Int) := []
deriving Repr, DecidableEq

inductive FieldType where
  | minute | hour | day_of_month | month | day_of_week
deriving Repr, DecidableEq

/-- `CronExpression = Record<FieldType, CronMatch>` from `src/types.ts`. -/
structure CronExpression where
  minute : CronMatch
  hour : CronMatch
  day_of_month : CronMatch
  month : CronMatch
  day_of_week : CronMatch
deriving Repr, DecidableEq

/-! ## Calendar model

The engine works on `TZDate` values (wall-clock views of instants in an IANA zone) and
mutates them through the JavaScript `Date` setters, which normalize out-of-range
components.  The model below represents such a value by its wall-clock fields in the
target zone, with fixed-offset zone semantics (every civil day is 1440 minutes; the
counterexample runs all use UTC, where this is exact). -/

/-- A timezone-aware instant, as its wall-clock fields in the target zone. -/
structure DateT where
  year : Int
  month : Int
  day : Int
  hour : Int
  minute : Int
  sec : Int
  ms : Int
deriving Repr, DecidableEq

def isLeapYear (y : Int) : Bool :=
  (y % 4 == 0 && y % 100 != 0) || y % 400 == 0

def daysInMonthYM (y m : Int) : Int :=
  if m == 2 then (if isLeapYear y then 29 else 28)
  else if m == 4 || m == 6 || m == 9 || m == 11 then 30
  else 31

/-- Well-formed wall-clock fields (what an actual `Date` always satisfies). -/
def DateT.wf (d : DateT) : Prop :=
  1 ≤ d.month ∧ d.month ≤ 12 ∧ 1 ≤ d.day ∧ d.day ≤ daysInMonthYM d.year d.month ∧
  0 ≤ d.hour ∧ d.hour ≤ 23 ∧ 0 ≤ d.minute ∧ d.minute ≤ 59 ∧
  0 ≤ d.sec ∧ d.sec ≤ 59 ∧ 0 ≤ d.ms ∧ d.ms ≤ 999

instance (d : DateT) : Decidable d.wf := by unfold DateT.wf; exact inferInstance

/-- Strict chronological order of wall-clock values (lexicographic on the fields;
for well-formed values in a fixed-offset zone this is the temporal order). -/
def dLt (a b : DateT) : Prop :=
  a.year < b.year ∨ (a.year = b.year ∧
    (a.month < b.month ∨ (a.month = b.month ∧
      (a.day < b.day ∨ (a.day = b.day ∧
        (a.hour < b.hour ∨ (a.hour = b.hour ∧
          (a.minute < b.minute ∨ (a.minute = b.minute ∧
            (a.sec < b.sec ∨ (a.sec = b.sec ∧ a.ms < b.ms)))))))))))

instance (a b : DateT) : Decidable (dLt a b) := by unfold dLt; exact inferInstance

def dLe (a b : DateT) : Prop := dLt a b ∨ a = b

instance (a b : DateT) : Decidable (dLe a b) := by unfold dLe; exact inferInstance

/-- Number of days since 1970-01-01 of the civil date `(y, m, d)`
(standard era-based civil-from-days inverse; used only to compute weekdays). -/
def daysFromCivil (y m d : Int) : Int :=
  let y2 := if m ≤ 2 then y - 1 else y
  let era := y2 / 400
  let yoe := y2 - era * 400
  let mp := (m + 9) % 12
  let doy := (153 * mp + 2) / 5 + (d - 1)
  let doe := yoe * 365 + yoe / 4 - yoe / 100 + doy
  era * 146097 + doe - 719468

/-- JavaScript `getDay`: weekday with Sunday = 0. -/
def weekdayD (dt : DateT) : Int :=
  (daysFromCivil dt.year dt.month dt.day + 4) % 7

/-- `date-fns` `addDays d 1` restricted to one day (keeps the time of day). -/
def addDaysOne (d : DateT) : DateT :=
  if d.day < daysInMonthYM d.year d.month then { d with day := d.day + 1 }
  else if d.month < 12 then { d with month := d.month + 1, day := 1 }
  else { d with year := d.year + 1, month := 1, day := 1 }

def subDaysOne (d : DateT) : DateT :=
  if 1 < d.day then { d with day := d.day - 1 }
  else if 1 < d.month then { d with month := d.month - 1, day := daysInMonthYM d.year (d.month - 1) }
  else { d with year := d.year - 1, month := 12, day := 31 }

/-- `date-fns` `addDays` (also with negative counts, as used by the special-day helpers). -/
def addDaysI (d : DateT) (n : Int) : DateT :=
  if 0 ≤ n then addDaysOne^[n.toNat] d else subDaysOne^[(-n).toNat] d

/-- JavaScript `Date.prototype.setMinutes m`: replaces the minute, carrying overflow
into hours/days, keeping seconds and milliseconds. -/
def setMinutesJS (d : DateT) (m : Int) : DateT :=
  let t := d.hour * 60 + m
  let dsh := t / 1440
  let r := t % 1440
  addDaysI { d with hour := r / 60, minute := r % 60 } dsh

/-- JavaScript `Date.prototype.setHours h` (keeps minute, seconds, milliseconds). -/
def setHoursJS (d : DateT) (h : Int) : DateT :=
  let dsh := h / 24
  let r := h % 24
  addDaysI { d with hour := r } dsh

/-- JavaScript `Date.prototype.setDate n`: day `n` of the current month, overflow
normalized into following months (equivalently the first of the month plus `n - 1` days). -/
def setDateJS (d : DateT) (n : Int) : DateT :=
  addDaysI { d with day := 1 } (n - 1)

/-- JavaScript `Date.prototype.setMonth M` (0-based month), day-of-month overflow
normalized forward (e.g. Feb 31 becomes Mar 3). -/
def setMonthJS (d : DateT) (M : Int) : DateT :=
  let y := d.year + M / 12
  let m := M % 12 + 1
  addDaysI { d with year := y, month := m, day := 1 } (d.day - 1)

/-- JavaScript `Date.prototype.setFullYear y`, day-of-month overflow normalized
(Feb 29 becomes Mar 1 in a non-leap year). -/
def setFullYearJS (d : DateT) (y : Int) : DateT :=
  addDaysI { d with year := y, day := 1 } (d.day - 1)

/-- `date-fns` `startOfMonth` (returns a fresh value at 00:00:00.000). -/
def startOfMonthD (d : DateT) : DateT :=
  { d with day := 1, hour := 0, minute := 0, sec := 0, ms := 0 }

/-- `date-fns` `endOfMonth` (returns a fresh value at 23:59:59.999 of the last day). -/
def endOfMonthD (d : DateT) : DateT :=
  { d with day := daysInMonthYM d.year d.month, hour := 23, minute := 59, sec := 59, ms := 999 }

/-- `date-fns` `isWeekend`. -/
def isWeekendD (d : DateT) : Bool :=
  weekdayD d == 0 || weekdayD d == 6

/-! ## String primitives (JavaScript semantics, over `List Char`) -/

def isDigitC (c : Char) : Bool := '0' ≤ c && c ≤ '9'

def isAsciiUpper (c : Char) : Bool := 'A' ≤ c && c ≤ 'Z'

/-- ASCII lowercasing (`String.prototype.toLowerCase` restricted to ASCII; every
token the repository's grammar gives meaning to is ASCII). -/
def toLowerC (c : Char) : Char :=
  if isAsciiUpper c then Char.ofNat (c.toNat + 32) else c

def toLowerL (l : List Char) : List Char := l.map toLowerC

/-- The ASCII part of the JavaScript `\s` class (used by `split(/\s+/)`). -/
def isJsSpace (c : Char) : Bool :=
  c == ' ' || c == '\t' || c == '\n' || c == '\r' || c == '\x0b' || c == '\x0c'

/-- `String.prototype.split` on a separator predicate (keeps empty pieces, like JS). -/
def splitOnPred (p : Char → Bool) : List Char → List (List Char)
  | [] => [[]]
  | c :: rest =>
    match splitOnPred p rest with
    | [] => if p c then [[], []] else [[c]]
    | g :: gs => if p c then [] :: g :: gs else (c :: g) :: gs

def splitOnChar (sep : Char) (l : List Char) : List (List Char) :=
  splitOnPred (· == sep) l

def digitsVal (l : List Char) : Nat :=
  l.foldl (fun a c => a * 10 + (c.toNat - '0'.toNat)) 0

def jsParseIntDigits (l : List Char) : Option Int :=
  let ds := l.takeWhile isDigitC
  if ds = [] then none else some (digitsVal ds : Nat)

/-- JavaScript `Number.parseInt(s, 10)`: optional leading whitespace and sign, then a
maximal run of decimal digits; `none` models the `NaN` result. -/
def jsParseInt (l : List Char) : Option Int :=
  let l2 := l.dropWhile isJsSpace
  match l2 with
  | '+' :: rest => jsParseIntDigits rest
  | '-' :: rest => (jsParseIntDigits rest).map (fun n => -n)
  | _ => jsParseIntDigits l2

/-! ## Parser (src/parse.ts) -/

structure FieldInfo where
  min : Int
  max : Int
  «alias» : List (List Char × Int) := []

def FIELD_INFO (f : FieldType) : FieldInfo :=
  match f with
  | .minute => ⟨0, 59, []⟩
  | .hour => ⟨0, 23, []⟩
  | .day_of_month => ⟨1, 31, []⟩
  | .month => ⟨1, 12,
      [("jan".data, 1), ("feb".data, 2), ("mar".data, 3), ("apr".data, 4),
       ("may".data, 5), ("jun".data, 6), ("jul".data, 7), ("aug".data, 8),
       ("sep".data, 9), ("oct".data, 10), ("nov".data, 11), ("dec".data, 12)]⟩
  | .day_of_week => ⟨0, 6,
      [("sun".data, 0), ("mon".data, 1), ("tue".data, 2), ("wed".data, 3),
       ("thu".data, 4), ("fri".data, 5), ("sat".data, 6)]⟩

def CronFields : List FieldType :=
  [.minute, .hour, .day_of_month, .month, .day_of_week]

def fieldName (f : FieldType) : String :=
  match f with
  | .minute => "minute"
  | .hour => "hour"
  | .day_of_month => "day_of_month"
  | .month => "month"
  | .day_of_week => "day_of_week"

def PREDEFINED_EXPRESSIONS : List (List Char × List Char) :=
  [("@yearly".data, "0 0 1 1 *".data), ("@monthly".data, "0 0 1 * *".data),
   ("@weekly".data, "0 0 ? * 0".data), ("@daily".data, "0 0 * * *".data),
   ("@hourly".data, "0 * * * *".data), ("@minutely".data, "* * * * *".data)]

def splitWords (l : List Char) : List (List Char) :=
  (splitOnPred isJsSpace l).filter (· ≠ [])

/-- `splitExpression`: a matching `@`-macro is expanded and re-split (the expansion
strings contain no `@`, so the source's recursive call bottoms out after one level,
inlined here as `splitWords`). -/
def splitExpression (l : List Char) : List (List Char) :=
  if l.head? == some '@' then
    match PREDEFINED_EXPRESSIONS.lookup (toLowerL l) with
    | some exp => splitWords exp
    | none => splitWords l
  else splitWords l

def validateRange (value : Int) (field : FieldType) : Except String Unit :=
  let info := FIELD_INFO field
  if value < info.min || value > info.max then
    .error ("Value [" ++ toString value ++ "] out of range for field [" ++
      fieldName field ++ "]. It must be less than or equals to [" ++ toString info.max ++ "].")
  else .ok ()

/-- `parseValue`, at numeric fidelity.  The alias branch in the source is
`if (info.alias && cleanValue in info.alias && info.alias[cleanValue])`:
the third conjunct is a truthiness test, so an alias mapping to `0` (`sun`)
falls through to the numeric path.  The `in` operator also consults the prototype
chain, through which the tokens `constructor` and `__proto__` hit this branch and
return non-numeric objects; those executions are modelled by `parseValueJ` below
(see `parseValueJ_agrees`: on every other token the two functions agree). -/
def parseValue (value : List Char) (field : FieldType) : Except String Int :=
  let info := FIELD_INFO field
  let cleanValue := toLowerL value
  let aliasHit : Option Int :=
    match info.alias.lookup cleanValue with
    | some v => if v ≠ 0 then some v else none
    | none => none
  match aliasHit with
  | some v => .ok v
  | none =>
    match jsParseInt value with
    | none =>
      .error ("Invalid numeric value [" ++ String.mk value ++ "] for field [" ++
        fieldName field ++ "]")
    | some numValue =>
      if field == .day_of_week && numValue == 7 then .ok 0
      else
        -- after the `7 → 0` early return, both remaining branches validate
        Except.bind (validateRange numValue field) (fun _ => .ok numValue)

def parseStep (part : List Char) (field : FieldType) : Except String CronStep :=
  let sp := splitOnChar '/' part
  let range := sp.headD []
  let stepStr := (sp.drop 1).headD []
  if range = [] || stepStr = [] then
    .error ("Invalid step format [" ++ String.mk part ++ "] for field [" ++
      fieldName field ++ "]. Expected format: \"from/to/step\".")
  else
    let step := jsParseInt stepStr
    if range = ['*'] then
      let mx := if field == .day_of_week then 7 else (FIELD_INFO field).max
      .ok ⟨(FIELD_INFO field).min, mx, step⟩
    else
      let sp2 := splitOnChar '-' range
      let fromStr := sp2.headD []
      let toStr := (sp2.drop 1).headD []
      if fromStr = [] then
        .error ("Invalid step format [" ++ String.mk part ++ "] for field [" ++
          fieldName field ++ "]. Expected format: \"from/to/step\".")
      else do
        let fromV ← parseValue fromStr field
        let defaultMax : Int := if field == .day_of_week then 7 else (FIELD_INFO field).max
        let toV ← if toStr ≠ [] then parseValue toStr field else pure defaultMax
        pure ⟨fromV, toV, step⟩

def parseRange (part : List Char) (field : FieldType) : Except String CronRange :=
  let sp := splitOnChar '-' part
  let fromStr := sp.headD []
  let toStr := (sp.drop 1).headD []
  if fromStr = [] || toStr = [] then
    .error ("Invalid range format [" ++ String.mk part ++ "] for field [" ++
      fieldName field ++ "]. Expected format: \"from-to\".")
  else do
    let fromV ← parseValue fromStr field
    let toV ← parseValue toStr field
    pure ⟨fromV, toV⟩

def insertAsc (v : Int) : List Int → List Int
  | [] => [v]
  | x :: xs => if v ≤ x then v :: x :: xs else x :: insertAsc v xs

def sortAsc (l : List Int) : List Int := l.foldr insertAsc []

/-- `addUniqueValues`: push the values not already present, then sort ascending
(`Array.prototype.sort` with `(a, b) => a - b`; on a duplicate-free integer array
every correct sort produces the same unique ascending order). -/
def addUniqueValues (values newValues : List Int) : List Int :=
  sortAsc (newValues.foldl (fun acc v => if acc.contains v then acc else acc ++ [v]) values)

/-- `addUniqueRanges`: the source dedups by the string key `from + "-" + to`, which on
integers determines the pair `(from, to)`. -/
def addUniqueRanges (ranges newRanges : List CronRange) : List CronRange :=
  newRanges.foldl (fun acc r => if acc.contains r then acc else acc ++ [r]) ranges

def isWordChar (c : Char) : Bool :=
  isDigitC c || ('a' ≤ c && c ≤ 'z') || isAsciiUpper c || c == '_'

def ciMatchesAt : List Char → List Char → Bool
  | [], _ => true
  | _ :: _, [] => false
  | k :: ks, c :: cs => toLowerC k == toLowerC c && ciMatchesAt ks cs

/-- `s.replace(new RegExp("\\b" + key + "\\b", "i"), repl)` for a purely alphabetic
`key`: replace the first case-insensitive whole-word occurrence (without the `g` flag a
JavaScript string replace rewrites only the first match).  Because the key starts and
ends with word characters, the `\b` boundaries amount to: the preceding character (if
any) and the following character (if any) are non-word characters. -/
def replaceWordCIAux (key repl : List Char) : Bool → List Char → List Char
  | _, [] => []
  | prevIsWord, c :: rest =>
    if !prevIsWord && ciMatchesAt key (c :: rest) &&
       (match (c :: rest).drop key.length with
        | [] => true
        | d :: _ => !isWordChar d) then
      repl ++ (c :: rest).drop key.length
    else c :: replaceWordCIAux key repl (isWordChar c) rest

def replaceWordCI (key repl s : List Char) : List Char :=
  replaceWordCIAux key repl false s

def digitChars (v : Int) : List Char :=
  (toString v).data

/-- The day-name normalization loop at the top of `parseField` for `day_of_week`:
each alias key in order replaces its first whole-word occurrence with its number. -/
def normalizeDowNames (part : List Char) : List Char :=
  (FIELD_INFO .day_of_week).alias.foldl
    (fun s kv => replaceWordCI kv.1 (digitChars kv.2) s) part

/-- One `subPart` iteration of the `parseField` loop (each `continue` is a branch). -/
def parseFieldSub (field : FieldType) (result : CronMatch) (subPart : List Char) :
    Except String CronMatch :=
  if subPart = ['l'] && field == .day_of_month then
    .ok { result with lastDay := true }
  else if subPart = ['l', 'w'] && field == .day_of_month then
    .ok { result with lastWeekday := true }
  else if subPart.getLast? == some 'w' && field == .day_of_month then
    -- `Number.parseInt(subPart.slice(0, -1))` is stored unvalidated (NaN ↦ none)
    .ok { result with nearestWeekdays := result.nearestWeekdays ++ [jsParseInt subPart.dropLast] }
  else if subPart.getLast? == some 'l' && field == .day_of_week then do
    let day ← parseValue subPart.dropLast field
    pure { result with lastDays := result.lastDays ++ [day] }
  else if subPart.contains '#' && field == .day_of_week then
    let sp := splitOnChar '#' subPart
    let dayStr := sp.headD []
    let instanceStr := (sp.drop 1).headD []
    if dayStr = [] || instanceStr = [] then
      .error ("Invalid nth day format [" ++ String.mk subPart ++ "] for field [" ++
        fieldName field ++ "]. Expected format: \"day#instance\".")
    else do
      let day ← parseValue dayStr field
      -- the instance itself is `Number.parseInt`, stored unvalidated
      pure { result with nthDays := result.nthDays ++ [⟨day, jsParseInt instanceStr⟩] }
  else if subPart.contains '/' then do
    let s ← parseStep subPart field
    pure { result with steps := result.steps ++ [s] }
  else if subPart.contains '-' then do
    let r ← parseRange subPart field
    pure { result with ranges := addUniqueRanges result.ranges [r] }
  else do
    let v ← parseValue subPart field
    pure { result with values := addUniqueValues result.values [v] }

def parseField (part : List Char) (field : FieldType) : Except String CronMatch :=
  if part = ['*'] then .ok { all := true }
  else if part = ['?'] then .ok { «omit» := true }
  else
    let normalizedPart := if field == .day_of_week then normalizeDowNames part else part
    let parts := splitOnChar ',' (toLowerL normalizedPart)
    parts.foldlM (parseFieldSub field) {}

/-- `ParsedCronExpression` from `src/types.ts` (optional-field record shape). -/
structure ParsedCronExpression where
  success : Bool
  pattern : String
  expression : Option CronExpression := none
  error : Option String := none
deriving Repr, DecidableEq

def parse (expression : String) : ParsedCronExpression :=
  if expression = "" then   -- `if (!expression)`: only the empty string is falsy
    { success := false, pattern := expression, error := some "Empty expression" }
  else
    let parts := splitExpression expression.data
    -- with 4 ≤ length the four indexed `=== undefined` checks cannot fire
    if parts.length < 4 || parts.length > 5 then
      { success := false, pattern := expression,
        error := some ("Invalid cron expression [" ++ expression ++
          "]. Expected [4 to 5] fields but found [" ++ toString parts.length ++ "] fields.") }
    else
      let r : Except String CronExpression := do
        let mn ← parseField (parts.getD 0 []) .minute
        let hr ← parseField (parts.getD 1 []) .hour
        let dm ← parseField (parts.getD 2 []) .day_of_month
        let mo ← parseField (parts.getD 3 []) .month
        let dw ← if parts.getD 4 [] ≠ [] then parseField (parts.getD 4 []) .day_of_week
                 else pure { all := true }
        pure ⟨mn, hr, dm, mo, dw⟩
      match r with
      | .ok e => { success := true, pattern := expression, expression := some e }
      | .error msg =>
        { success := false, pattern := expression,
          error := some ("Invalid cron expression [" ++ expression ++ "]. " ++ msg) }

/-! ## Matching engine (src/match.ts) -/

/-- The walk in `getLastWeekdayOfMonth`: step back from the end of the month while the
day is a weekend.  At most two backward steps are ever taken, so fuel 7 is exact. -/
def lastWeekdayWalk : Nat → DateT → DateT
  | 0, d => d
  | n + 1, d => if isWeekendD d then lastWeekdayWalk n (subDaysOne d) else d

def getLastWeekdayOfMonth (date : DateT) : Int :=
  (lastWeekdayWalk 7 (endOfMonthD date)).day

/-- `resolveNearestWeekday`.  A `none` target models a stored `NaN`: in the source the
clamp and `addDays` then produce an invalid date whose `getDate` is `NaN`, which no
strict-equality comparison matches, so `none` is returned and treated as never-equal. -/
def resolveNearestWeekday (targetDay : Option Int) (date : DateT) : Option Int :=
  match targetDay with
  | none => none
  | some t =>
    let daysInMonth := daysInMonthYM date.year date.month
    let clampedDay := min (max t 1) daysInMonth
    let monthStart := startOfMonthD date
    let candidate := addDaysI monthStart (clampedDay - 1)
    let dayOfWeek := weekdayD candidate
    if dayOfWeek == 0 then
      if clampedDay == daysInMonth then some (addDaysI candidate (-2)).day
      else some (addDaysI candidate 1).day
    else if dayOfWeek == 6 then
      if clampedDay == 1 then some (addDaysI candidate 2).day
      else some (addDaysI candidate (-1)).day
    else some candidate.day

/-- One entry of the `match.steps?.some(...)` predicate in `isFieldMatch`. -/
def stepEntryMatch (s : CronStep) (value : Int) : Bool :=
  if s.step == some 0 then false          -- step of 0 never divides
  else if value < s.«from» || value > s.«to» then false
  else if s.«from» == 0 && value == 0 then true
  else
    match s.step with
    | none => false                        -- NaN step: `x % NaN === 0` is false
    | some st =>
      -- JavaScript `%` truncates toward zero (dividend sign), i.e. `Int.tmod`
      decide (0 ≤ value - s.«from») && (Int.tmod (value - s.«from») st == 0)

/-- One entry of the `match.nthDays?.some(...)` predicate. -/
def nthDayEntryMatch (nth : CronNth) (date : DateT) : Bool :=
  let dow := weekdayD date
  if dow != nth.day_of_week then false
  else
    let dayOfMonth := date.day
    let firstDayOfMonth := startOfMonthD date
    let firstDowOfMonth := weekdayD firstDayOfMonth
    let daysToFirstOccurrence := (dow - firstDowOfMonth + 7) % 7
    let firstOccurrenceDay := daysToFirstOccurrence + 1
    let inst := (dayOfMonth - firstOccurrenceDay) / 7 + 1
    some inst == nth.inst

/-- The walk in the `lastDays` branch: step back from the end of the month until the
weekday equals `value`.  Reached only under `lastDays.contains value` with parsed
entries in `0..6`, where at most 6 backward steps are taken, so fuel 7 is exact. -/
def lastDowWalk : Nat → Int → DateT → DateT
  | 0, _, d => d
  | n + 1, v, d => if weekdayD d != v then lastDowWalk n v (subDaysOne d) else d

def isFieldMatch (value : Int) (m : CronMatch) (field : FieldType) (date : DateT) : Bool :=
  if m.«omit» then true
  else if m.all then true
  else if m.values.contains value then true
  else if m.ranges.any (fun r => value ≥ r.«from» && value ≤ r.«to») then true
  else if m.steps.any (fun s => stepEntryMatch s value) then true
  else if field == .day_of_month && m.lastDay && value == (endOfMonthD date).day then true
  else if field == .day_of_month && m.lastWeekday && value == getLastWeekdayOfMonth date then true
  else if field == .day_of_month && m.nearestWeekdays.length > 0 then
    m.nearestWeekdays.any (fun targetDay => resolveNearestWeekday targetDay date == some value)
  else if field == .day_of_week && m.nthDays.length > 0 then
    m.nthDays.any (fun nth => nthDayEntryMatch nth date)
  else if field == .day_of_week && m.lastDays.length > 0 then
    if !(m.lastDays.contains value) then false
    else
      let current := lastDowWalk 7 value (endOfMonthD date)
      date.day == current.day
  else false

def isTimeMatch (expression : CronExpression) (date : DateT) : Bool :=
  let minuteValue := date.minute
  let hourValue := date.hour
  let dayOfMonthValue := date.day
  let monthValue := date.month          -- getMonth(date) + 1
  let dayOfWeekValue := weekdayD date
  if !(isFieldMatch minuteValue expression.minute .minute date) then false
  else if !(isFieldMatch hourValue expression.hour .hour date) then false
  else if !(isFieldMatch monthValue expression.month .month date) then false
  else
    let dayOfMonthMatch := expression.day_of_month
    let dayOfWeekMatch := expression.day_of_week
    let isDayOfMonthAny := dayOfMonthMatch.all || dayOfMonthMatch.«omit»
    let isDayOfWeekAny := dayOfWeekMatch.all || dayOfWeekMatch.«omit»
    if isDayOfMonthAny && isDayOfWeekAny then true
    else if isDayOfWeekAny then
      isFieldMatch dayOfMonthValue dayOfMonthMatch .day_of_month date
    else if isDayOfMonthAny then
      isFieldMatch dayOfWeekValue dayOfWeekMatch .day_of_week date
    else
      isFieldMatch dayOfMonthValue dayOfMonthMatch .day_of_month date ||
      isFieldMatch dayOfWeekValue dayOfWeekMatch .day_of_week date

/-- `if (!validMonths.includes(m)) validMonths.push(m)`. -/
def pushUnique (acc : List Int) (m : Int) : List Int :=
  if acc.contains m then acc else acc ++ [m]

/-- `[from, from+1, …, to]` (empty when `to < from`), for the ranges loop in
`getNextMatchingMonth`. -/
def intsFromTo (a b : Int) : List Int :=
  (List.range (b - a + 1).toNat).map (fun i => a + (i : Int))

/-- The `for (let m = step.from; m <= step.to; m += step.step)` collection loop of
`getNextMatchingMonth`, with explicit fuel: `none` means the loop is still running
when the fuel runs out.  For a negative `step.step` with `from ≤ to` the condition
`m ≤ to` stays true forever, so in the source this loop never terminates. -/
def collectStepMonthsAux (st «to» : Int) : Nat → Int → List Int → Option (List Int)
  | gas, m, acc =>
    if m ≤ «to» then
      match gas with
      | 0 => none
      | g + 1 => collectStepMonthsAux st «to» g (m + st) (pushUnique acc m)
    else some acc

def collectStepMonths (gas : Nat) (acc : List Int) (s : CronStep) : Option (List Int) :=
  match s.step with
  | some 0 => some acc                                  -- `if (step.step === 0) continue`
  | none => some (if s.«from» ≤ s.«to» then pushUnique acc s.«from» else acc)
    -- NaN step: first iteration pushes `from`, then `m` becomes NaN and the loop exits
  | some st => collectStepMonthsAux st s.«to» gas s.«from» acc

/-- `getNextMatchingMonth`; `none` models the non-terminating collection loop. -/
def getNextMatchingMonth (gas : Nat) (currentMonth : Int) (m : CronMatch) :
    Option (Int × Bool) :=
  if m.all || m.«omit» then some (currentMonth, false)
  else
    let v1 := m.values
    let v2 := m.ranges.foldl (fun acc r => (intsFromTo r.«from» r.«to»).foldl pushUnique acc) v1
    match m.steps.foldlM (collectStepMonths gas) v2 with
    | none => none
    | some v3 =>
      let validMonths := sortAsc v3
      match validMonths with
      | [] => some (currentMonth, false)
      | first :: _ =>
        match validMonths.find? (fun x => x ≥ currentMonth) with
        | some nextMonth => some (nextMonth, false)
        | none => some (first, true)

def getFirstValidDayOfMonth (m : CronMatch) : Option Int :=
  if m.lastDay || m.lastWeekday || m.nearestWeekdays.length > 0 then none
  else
    let minDay : Int := 32
    let minDay := match m.values with
      | [] => minDay
      | v :: vs => min minDay (vs.foldl min v)        -- Math.min(minDay, Math.min(...values))
    let minDay := m.ranges.foldl (fun acc r => min acc r.«from») minDay
    let minDay := m.steps.foldl (fun acc s => min acc s.«from») minDay
    if minDay < 32 then some minDay else none

def getFirstValidFieldValue (m : CronMatch) (mn mx : Int) : Int :=
  if m.all || m.«omit» then mn
  else if m.values ≠ [] then
    match m.values with
    | [] => mn
    | v :: vs => vs.foldl min v
  else if m.ranges ≠ [] then m.ranges.foldl (fun a r => min a r.«from») (mx + 1)
  else if m.steps ≠ [] then m.steps.foldl (fun a s => min a s.«from») (mx + 1)
  else mn

/-- The `for (const step of match.steps)` scan inside `getNextValidField`
(`none` = the loop finished without an early return). -/
def stepScanNext (currentValue : Int) : List CronStep → Option Int
  | [] => none
  | s :: rest =>
    if s.step == some 0 then stepScanNext currentValue rest   -- avoid division by zero
    else if currentValue < s.«from» then some s.«from»
    else if currentValue ≥ s.«from» && currentValue ≤ s.«to» then
      match s.step with
      | none => stepScanNext currentValue rest
        -- NaN step: `nextVal` is NaN and `NaN <= to` is false, so no return
      | some st =>
        let steps := Int.fdiv (currentValue - s.«from») st    -- Math.floor(x / step)
        let nextVal := s.«from» + (steps + 1) * st
        if nextVal ≤ s.«to» then some nextVal else stepScanNext currentValue rest
    else stepScanNext currentValue rest

/-- The `for (const range of match.ranges)` scan inside `getNextValidField`. -/
def rangeScanNext (currentValue : Int) : List CronRange → Option Int
  | [] => none
  | r :: rest =>
    if currentValue < r.«from» then some r.«from»
    else if currentValue ≥ r.«from» && currentValue < r.«to» then some (currentValue + 1)
    else rangeScanNext currentValue rest

def getNextValidField (currentValue : Int) (m : CronMatch) (_mn mx : Int)
    (wrapAround : Bool) : Int :=
  if m.all then currentValue + 1
  else if m.values ≠ [] then
    match m.values.find? (fun v => v > currentValue) with
    | some v => v
    | none =>
      if wrapAround then m.values.headD (mx + 1) else mx + 1
  else if m.ranges ≠ [] then
    match rangeScanNext currentValue m.ranges with
    | some v => v
    | none =>
      if wrapAround then (m.ranges.headD ⟨mx + 1, mx + 1⟩).«from» else mx + 1
  else if m.steps ≠ [] then
    match stepScanNext currentValue m.steps with
    | some v => v
    | none =>
      -- `if (wrapAround && match.steps[0] !== undefined && match.steps[0].step !== 0)`
      -- (`NaN !== 0` is true, so a NaN head step also wraps)
      if wrapAround && (m.steps.headD ⟨0, 0, some 0⟩).step ≠ some 0 then
        (m.steps.headD ⟨0, 0, some 0⟩).«from»
      else currentValue + 1
  else currentValue + 1

/-- One iteration of the day-by-day `while (daysToTry-- > 0)` loop of
`getNextValidDate`:  `Sum.inl` ends the loop (`none` = the diverging month
collection, `some` = `break` with the current date), `Sum.inr (skip, nd)` is
`continue` carrying the next `skipAddDay` flag and the mutated date. -/
def dayLoopStep (gas : Nat) (E : CronExpression)
    (isDayOfMonthAny isDayOfWeekAny : Bool) (firstValidDayOfMonth : Option Int)
    (skipAddDay : Bool) (nd0 : DateT) : Sum (Option DateT) (Bool × DateT) :=
  let nextDate := if !skipAddDay then addDaysI nd0 1 else nd0
  let nextDate := setHoursJS nextDate 0
  let nextDate := setMinutesJS nextDate 0
  let dayOfMonth := nextDate.day
  let dayOfWeek := weekdayD nextDate
  let month := nextDate.month                       -- getMonth(nextDate) + 1
  if !(isFieldMatch month E.month .month nextDate) then
    -- jump directly to the next valid month
    match getNextMatchingMonth gas (if month + 1 > 12 then 1 else month + 1) E.month with
    | none => Sum.inl none
    | some (nextMonth, wrapped) =>
      let nextDate := if wrapped || nextMonth < month then
          setFullYearJS nextDate (nextDate.year + 1) else nextDate
      let nextDate := setMonthJS nextDate (nextMonth - 1)
      let nextDate := setDateJS nextDate 1
      Sum.inr (true, nextDate)
  else if isDayOfMonthAny && isDayOfWeekAny then Sum.inl (some nextDate)
  else if isDayOfWeekAny then
    if isFieldMatch dayOfMonth E.day_of_month .day_of_month nextDate then
      Sum.inl (some nextDate)
    else
      match firstValidDayOfMonth with
      | some fvd =>
        if dayOfMonth < fvd then
          if fvd ≤ daysInMonthYM nextDate.year nextDate.month then
            Sum.inr (true, setDateJS nextDate fvd)
          else Sum.inr (false, nextDate)
        else Sum.inr (false, nextDate)
      | none => Sum.inr (false, nextDate)
  else if isDayOfMonthAny then
    if isFieldMatch dayOfWeek E.day_of_week .day_of_week nextDate then
      Sum.inl (some nextDate)
    else Sum.inr (false, nextDate)
  else
    if isFieldMatch dayOfMonth E.day_of_month .day_of_month nextDate ||
       isFieldMatch dayOfWeek E.day_of_week .day_of_week nextDate then
      Sum.inl (some nextDate)
    else Sum.inr (false, nextDate)

/-- The day-by-day loop itself; `fuel` is the remaining `daysToTry` (started at
`366 * 4`), and on exhaustion the loop falls out with the current date, exactly like
the source.  `none` propagates the non-terminating month collection. -/
def dayLoopF (gas : Nat) (E : CronExpression)
    (isDayOfMonthAny isDayOfWeekAny : Bool) (firstValidDayOfMonth : Option Int) :
    Nat → Bool → DateT → Option DateT
  | 0, _, nd => some nd
  | fuel + 1, skipAddDay, nd =>
    match dayLoopStep gas E isDayOfMonthAny isDayOfWeekAny firstValidDayOfMonth
        skipAddDay nd with
    | Sum.inl r => r
    | Sum.inr (sk, nd2) =>
      dayLoopF gas E isDayOfMonthAny isDayOfWeekAny firstValidDayOfMonth fuel sk nd2

/-- The same-day fast path of `getNextValidDate` (`match.ts` lines 233-287): try to
advance the minute, then the hour, inside the current day.  `Sum.inl` is an early
return of the advance, `Sum.inr` falls through to the day-by-day loop.
`nextDate.day` is the captured `currentDayOfMonth` (the day before any hour wrap). -/
def sameDayAdvance (currentDate nextDate : DateT) (expression : CronExpression) :
    Sum DateT DateT :=
  let currentMinute := currentDate.minute
  let nextMinute := getNextValidField currentMinute expression.minute 0 59 true
  if nextMinute > currentMinute then
    Sum.inl (setMinutesJS nextDate nextMinute)
  else
    let nd2 :=
      if nextMinute < currentMinute then
        -- wrapped to the next hour
        setMinutesJS (setHoursJS nextDate (nextDate.hour + 1)) nextMinute
      else nextDate
    if nextMinute < currentMinute && nd2.day == nextDate.day then
      Sum.inl nd2
    else
      -- day changed (or the minute did not move): try the hour
      let currentHour := currentDate.hour
      let nextHour := getNextValidField currentHour expression.hour 0 23 true
      if nextHour > currentHour then
        Sum.inl (setMinutesJS (setHoursJS nd2 nextHour)
          (getFirstValidFieldValue expression.minute 0 59))
      else Sum.inr nd2      -- wrapped to the next day: fall to day iteration

/-- The day-condition Boolean of `getNextValidDate` (`match.ts` lines 217-231). -/
def dayMatchesB (expression : CronExpression) (isDayOfMonthAny isDayOfWeekAny : Bool)
    (nextDate : DateT) : Bool :=
  let currentDayOfMonth := nextDate.day
  let currentDayOfWeek := weekdayD nextDate
  let currentMonthVal := nextDate.month
  if isDayOfMonthAny && isDayOfWeekAny then
    isFieldMatch currentMonthVal expression.month .month nextDate
  else if isDayOfWeekAny then
    isFieldMatch currentMonthVal expression.month .month nextDate &&
    isFieldMatch currentDayOfMonth expression.day_of_month .day_of_month nextDate
  else if isDayOfMonthAny then
    isFieldMatch currentMonthVal expression.month .month nextDate &&
    isFieldMatch currentDayOfWeek expression.day_of_week .day_of_week nextDate
  else
    isFieldMatch currentMonthVal expression.month .month nextDate &&
    (isFieldMatch currentDayOfMonth expression.day_of_month .day_of_month nextDate ||
     isFieldMatch currentDayOfWeek expression.day_of_week .day_of_week nextDate)

/-- `getNextValidDate`.  All mutations of the freshly cloned `nextDate` become
functional updates; the source's early `return`s in the same-day section become the
`Sum.inl` results, and falling through to the day iteration is `Sum.inr`. -/
def getNextValidDate (gas : Nat) (currentDate : DateT) (expression : CronExpression) :
    Option DateT :=
  -- clone, add one minute, clear seconds and milliseconds
  let nextDate := setMinutesJS currentDate (currentDate.minute + 1)
  let nextDate := { nextDate with sec := 0, ms := 0 }
  let isDayOfMonthAny := expression.day_of_month.all || expression.day_of_month.«omit»
  let isDayOfWeekAny := expression.day_of_week.all || expression.day_of_week.«omit»
  let isEveryMinute := expression.minute.all && expression.hour.all &&
    isDayOfMonthAny && expression.month.all && isDayOfWeekAny
  if isEveryMinute then some nextDate
  else
    let dayMatches := dayMatchesB expression isDayOfMonthAny isDayOfWeekAny nextDate
    let afterSameDay : Sum DateT DateT :=
      if dayMatches then sameDayAdvance currentDate nextDate expression
      else Sum.inr nextDate
    match afterSameDay with
    | Sum.inl r => some r
    | Sum.inr nd =>
      let firstValidDayOfMonth :=
        if isDayOfWeekAny then getFirstValidDayOfMonth expression.day_of_month else none
      match dayLoopF gas expression isDayOfMonthAny isDayOfWeekAny firstValidDayOfMonth
          (366 * 4) false nd with
      | none => none
      | some nd2 =>
        let nd3 := setHoursJS nd2 (getFirstValidFieldValue expression.hour 0 23)
        some (setMinutesJS nd3 (getFirstValidFieldValue expression.minute 0 59))

/-- `MatchOptions` from `src/types.ts`.  Counts are `Int` (JavaScript numbers).
The `startAt` default `new Date()` is modelled by the explicit `now` argument of
`getFutureMatches`. -/
structure MatchOptions where
  timezone : Option String := none
  startAt : Option DateT := none
  endAt : Option DateT := none
  matchCount : Option Int := none
  maxLoopCount : Option Int := none
  matchValidator : Option (DateT → Bool) := none

/-- The `while (matches.length < matchCount && loopCount < maxLoopCount)` loop;
`fuel` is the number of loop iterations still allowed by `maxLoopCount`. -/
def getFutureMatchesAux (gas : Nat) (expression : CronExpression)
    (matchValidator : Option (DateT → Bool)) (matchCount : Int) :
    Nat → DateT → List DateT → Option (List DateT)
  | fuel, currentDate, «matches» =>
    if («matches».length : Int) < matchCount then
      match fuel with
      | 0 => some «matches»
      | fuel + 1 =>
        let «matches» :=
          if isTimeMatch expression currentDate then
            if (match matchValidator with | none => true | some f => f currentDate) then
              «matches» ++ [currentDate]      -- `new Date(currentDate.toISOString())`
            else «matches»
          else «matches»
        match getNextValidDate gas currentDate expression with
        | none => none
        | some nd => getFutureMatchesAux gas expression matchValidator matchCount fuel nd «matches»
    else some «matches»

/-- `getFutureMatches`.  `now` models the ambient clock used by the `startAt` default;
`gas` bounds the month-collection loop (`none` = the source diverges).  The
`timezone || "UTC"` choice selects the wall-clock view; in this fixed-offset model the
`TZDate` construction is the identity on the wall-clock fields. -/
def getFutureMatches (gas : Nat) (now : DateT) (expression : CronExpression)
    (options : MatchOptions) : Option (List DateT) :=
  let startAt := options.startAt.getD now
  let matchCount := options.matchCount.getD 2
  let maxLoopCount := options.maxLoopCount.getD 1000
  -- `const startTime = new Date(startAt); startTime.setMilliseconds(0);`
  let startTime := { startAt with ms := 0 }
  getFutureMatchesAux gas expression options.matchValidator matchCount
    maxLoopCount.toNat startTime []

/-! ## Spec-side statements and claim theorems -/

/-- The day-disjunction table of spec §4.2.2, written from the spec's words:
`dom_any`/`dow_any` are "matcher is Any or Omit", and the four table rows are the
four cases of the disjunction. -/
def specDayCondition (E : CronExpression) (d : DateT) : Prop :=
  let dom_any := (E.day_of_month.all || E.day_of_month.«omit») = true
  let dow_any := (E.day_of_week.all || E.day_of_week.«omit») = true
  let domOk := isFieldMatch d.day E.day_of_month .day_of_month d = true
  let dowOk := isFieldMatch (weekdayD d) E.day_of_week .day_of_week d = true
  (dom_any ∧ dow_any) ∨
  (¬dom_any ∧ dow_any ∧ domOk) ∨
  (dom_any ∧ ¬dow_any ∧ dowOk) ∨
  (¬dom_any ∧ ¬dow_any ∧ (domOk ∨ dowOk))

/-- C1: `isTimeMatch` accepts exactly when the minute, hour and (1-based) month
matchers accept the instant's wall-clock fields and the spec's day-disjunction table
holds (day of week with Sun = 0). -/
theorem isTimeMatch_iff_spec (E : CronExpression) (d : DateT) :
    isTimeMatch E d = true ↔
      (isFieldMatch d.minute E.minute .minute d = true ∧
       isFieldMatch d.hour E.hour .hour d = true ∧
       isFieldMatch d.month E.month .month d = true ∧
       specDayCondition E d) := by
  unfold isTimeMatch specDayCondition
  cases h1 : isFieldMatch d.minute E.minute .minute d <;>
    cases h2 : isFieldMatch d.hour E.hour .hour d <;>
      cases h3 : isFieldMatch d.month E.month .month d <;>
        cases h4 : E.day_of_month.all || E.day_of_month.«omit» <;>
          cases h5 : E.day_of_week.all || E.day_of_week.«omit» <;>
            simp [h1, h2, h3, h4, h5]

/-- The expression stored for `"* * * * 1"` (every minute on Mondays). -/
def exprMinutelyMonday : CronExpression :=
  ⟨{all := true}, {all := true}, {all := true}, {all := true}, {values := [1]}⟩

/-- C2: a concrete run in which the advance function skips matching minutes.
`2024-01-01` is a Monday; every minute of it matches `"* * * * 1"`.  Advancing from
10:59 lands on 12:00 (the same-day minute advance computes `nextMinute = 60` on the
already-incremented cursor and `setMinutes(60)` carries one hour too far), so 11:00,
which matches and lies strictly between, is skipped — and the emitted sequence from
`startAt` 10:59 is `[10:59, 12:00]`, a consecutive pair with matching minutes strictly
between. -/
theorem advance_skips_matching_minute :
    parse "* * * * 1" =
      { success := true, pattern := "* * * * 1", expression := some exprMinutelyMonday } ∧
    getNextValidDate 0 ⟨2024,1,1,10,59,0,0⟩ exprMinutelyMonday =
      some ⟨2024,1,1,12,0,0,0⟩ ∧
    isTimeMatch exprMinutelyMonday ⟨2024,1,1,11,0,0,0⟩ = true ∧
    dLt ⟨2024,1,1,10,59,0,0⟩ ⟨2024,1,1,11,0,0,0⟩ ∧
    dLt ⟨2024,1,1,11,0,0,0⟩ ⟨2024,1,1,12,0,0,0⟩ ∧
    getFutureMatches 0 ⟨2024,1,1,10,59,0,0⟩ exprMinutelyMonday
      { startAt := some ⟨2024,1,1,10,59,0,0⟩ } =
      some [⟨2024,1,1,10,59,0,0⟩, ⟨2024,1,1,12,0,0,0⟩] :=
  ⟨by decide, by rfl, by rfl, by decide, by decide, by rfl⟩

/-- The expression stored for `"0 0 1 2/−1 *"` (with an ASCII hyphen in the real
input; note the negative month step it stores). -/
def exprNegMonthStep : CronExpression :=
  ⟨{values := [0]}, {values := [0]}, {values := [1]}, {steps := [⟨2,12,some (-1)⟩]},
   {all := true}⟩

/-- C7: the month-collection loop of `getNextMatchingMonth` runs forever on the
parsed negative step `2/−1`: from any `m ≤ 12` the condition `m ≤ to` stays true as
`m` decreases, so no amount of fuel makes it finish. -/
theorem collectStepMonthsAux_neg_step_diverges (gas : Nat) :
    ∀ (m : Int) (acc : List Int), m ≤ 12 →
      collectStepMonthsAux (-1) 12 gas m acc = none := by
  induction gas with
  | zero => intro m acc hm; unfold collectStepMonthsAux; simp [hm]
  | succ g ih =>
    intro m acc hm
    unfold collectStepMonthsAux
    simp only [hm, if_pos]
    exact ih (m + -1) (pushUnique acc m) (by omega)

/-- C7: `"0 0 1 2/−1 *"` (ASCII hyphen in the input) parses successfully, and
searching it from January never
terminates: the day loop's month skip calls the diverging collection (here run with
fuel 200; by `collectStepMonthsAux_neg_step_diverges` no fuel is enough), so
`getFutureMatches` loops forever instead of returning the matches found so far. -/
theorem getFutureMatches_neg_month_step_diverges :
    parse "0 0 1 2/-1 *" =
      { success := true, pattern := "0 0 1 2/-1 *", expression := some exprNegMonthStep } ∧
    (∀ gas : Nat, ∀ m : Int, m ≤ 12 →
      collectStepMonthsAux (-1) 12 gas m [] = none) ∧
    getFutureMatches 200 ⟨2024,1,1,0,0,0,0⟩ exprNegMonthStep
      { startAt := some ⟨2024,1,1,0,0,0,0⟩ } = none :=
  ⟨by decide, fun gas m hm => collectStepMonthsAux_neg_step_diverges gas m [] hm, by rfl⟩

/-- Witness for `getFutureMatches_neg_month_step_diverges` at concrete fuel and cursor. -/
theorem getFutureMatches_neg_month_step_diverges_w :
    collectStepMonthsAux (-1) 12 37 5 [] = none :=
  getFutureMatches_neg_month_step_diverges.2.1 37 5 (by decide)

/-- The expression stored for `"0/−61,59/1 * * * *"` (ASCII hyphen in the real input):
the minute matcher holds the two step entries, with the unvalidated negative step. -/
def exprNegMinuteStep : CronExpression :=
  ⟨{steps := [⟨0, 59, some (-61)⟩, ⟨59, 59, some 1⟩]}, {all := true}, {all := true},
   {all := true}, {all := true}⟩

/-- C3: `"0/−61,59/1 * * * *"` (ASCII hyphens in the real input) parses successfully,
yet from `startAt` 2024−01−01T10:00 `getFutureMatches` emits `[10:00, 09:59]` of the
same day — a descending sequence whose second instant lies strictly before `startAt`.
At minute 0 the step scan computes `nextVal = 0 + (0+1)·(−61) = −61`; the advance
then takes the wrap branch, and `setHours(+1)` followed by `setMinutes(−61)` lands
one minute BEFORE the cursor (the day is unchanged, so the early return fires).  The
backward instant matches the second step entry, so it is emitted. -/
theorem getFutureMatches_goes_backward :
    parse "0/-61,59/1 * * * *" =
      { success := true, pattern := "0/-61,59/1 * * * *",
        expression := some exprNegMinuteStep } ∧
    getFutureMatches 200 ⟨2024,1,1,10,0,0,0⟩ exprNegMinuteStep
      { startAt := some ⟨2024,1,1,10,0,0,0⟩ } =
      some [⟨2024,1,1,10,0,0,0⟩, ⟨2024,1,1,9,59,0,0⟩] ∧
    isTimeMatch exprNegMinuteStep ⟨2024,1,1,9,59,0,0⟩ = true ∧
    dLt ⟨2024,1,1,9,59,0,0⟩ ⟨2024,1,1,10,0,0,0⟩ :=
  ⟨by decide, by rfl, by rfl, by decide⟩

/-- C8: evaluation of one stored step entry.  For a positive step it accepts exactly
the in-range values congruent to `from` modulo `step`; a zero step is never accepted
and no division happens; and `"*/0 * * * *"` still parses, storing the zero step. -/
theorem stepEntryMatch_spec :
    (∀ f t st v : Int, 0 < st →
        (stepEntryMatch ⟨f, t, some st⟩ v = true ↔ f ≤ v ∧ v ≤ t ∧ (v - f) % st = 0)) ∧
    (∀ f t v : Int, stepEntryMatch ⟨f, t, some 0⟩ v = false) ∧
    parse "*/0 * * * *" =
      { success := true, pattern := "*/0 * * * *",
        expression := some ⟨{steps := [⟨0,59,some 0⟩]}, {all := true}, {all := true},
                            {all := true}, {all := true}⟩ } := by
  refine ⟨?_, ?_, by decide⟩
  · intro f t st v hst
    unfold stepEntryMatch
    dsimp only
    split_ifs with h0 hb hz
    · simp only [beq_iff_eq, Option.some.injEq] at h0; omega
    · simp only [Bool.or_eq_true, decide_eq_true_eq] at hb
      simp only [Bool.false_eq_true, false_iff]
      rintro ⟨ha, hc, -⟩; omega
    · simp only [Bool.or_eq_true, decide_eq_true_eq, not_or] at hb
      simp only [Bool.and_eq_true, beq_iff_eq] at hz
      simp only [true_iff]
      refine ⟨by omega, by omega, ?_⟩
      have hv : v - f = 0 := by omega
      simp [hv]
    · simp only [Bool.or_eq_true, decide_eq_true_eq, not_or] at hb
      simp only [Bool.and_eq_true, decide_eq_true_eq, beq_iff_eq]
      rw [Int.tmod_eq_emod (by omega) (by omega)]
      constructor
      · rintro ⟨-, h⟩; exact ⟨by omega, by omega, h⟩
      · rintro ⟨-, -, h⟩; exact ⟨by omega, h⟩
  · intro f t v
    unfold stepEntryMatch
    simp

/-- Witness for `stepEntryMatch_spec`: the entry `(0, 59, 15)` accepts 30. -/
theorem stepEntryMatch_spec_w : stepEntryMatch ⟨0, 59, some 15⟩ 30 = true :=
  (stepEntryMatch_spec.1 0 59 15 30 (by norm_num)).mpr (by norm_num)

/-- C9 counterexample: a whitespace-only input is rejected with the field-count
message, not the empty-input message the claim requires. -/
theorem whitespace_input_not_empty_error :
    (parse "   ").success = false ∧
    (parse "   ").error =
      some "Invalid cron expression [   ]. Expected [4 to 5] fields but found [0] fields." ∧
    (parse "   ").error ≠ some "Empty expression" := by
  refine ⟨by decide, by decide, by decide⟩

/-- C9 as amended: only the empty string gets the `"Empty expression"` error; any
other input whose whitespace split is empty (in particular whitespace-only input) gets
the 0-fields arity error; and `parse` is total — it returns a `ParsedCronExpression`
echoing the input pattern for every string, never an exception. -/
theorem parse_empty_and_whitespace :
    parse "" = { success := false, pattern := "", error := some "Empty expression" } ∧
    (∀ s : String, s ≠ "" → splitExpression s.data = [] →
      parse s =
        { success := false, pattern := s,
          error := some ("Invalid cron expression [" ++ s ++
            "]. Expected [4 to 5] fields but found [0] fields.") }) ∧
    (∀ s : String, (parse s).pattern = s ∧
      ((parse s).success = true ∨ (parse s).success = false)) := by
  refine ⟨by decide, ?_, ?_⟩
  · intro s hne hsplit
    have key : "Invalid cron expression [" ++ s ++
        "]. Expected [4 to 5] fields but found [" ++ toString (0:Nat) ++ "] fields." =
        "Invalid cron expression [" ++ s ++
        "]. Expected [4 to 5] fields but found [0] fields." := by
      have h0 : (toString (0:Nat)) = "0" := rfl
      rw [h0]
      simp only [String.append_assoc]
      congr 1
    unfold parse
    rw [if_neg hne, hsplit]
    simp only [List.length_nil]
    split
    · rw [key]
    · simp_all
  · intro s
    constructor
    · unfold parse
      split
      · rfl
      · dsimp only
        split
        · rfl
        · split <;> rfl
    · rcases Bool.eq_false_or_eq_true (parse s).success with h | h
      · exact Or.inl h
      · exact Or.inr h

/-- Witness for `parse_empty_and_whitespace` at the three-space input. -/
theorem parse_empty_and_whitespace_w :
    parse "   " =
      { success := false, pattern := "   ",
        error := some ("Invalid cron expression [   ]. Expected [4 to 5] fields but found [0] fields.") } :=
  parse_empty_and_whitespace.2.1 "   " (by decide) (by decide)

/-- The expression stored for `"* * * * *"`. -/
def exprEveryMinute : CronExpression :=
  ⟨{all := true}, {all := true}, {all := true}, {all := true}, {all := true}⟩

/-- C4 counterexample: `getFutureMatches` clears only the milliseconds of `startAt`
(the source comment says "without milliseconds"), not the seconds, so starting the
every-minute expression at `12:30:45.123` emits `12:30:45.000` — an instant that is
not on a whole-minute boundary. -/
theorem first_match_keeps_seconds :
    parse "* * * * *" =
      { success := true, pattern := "* * * * *", expression := some exprEveryMinute } ∧
    getFutureMatches 0 ⟨2024,1,1,0,0,0,0⟩ exprEveryMinute
      { startAt := some ⟨2024,1,1,12,30,45,123⟩, matchCount := some 1 } =
      some [⟨2024,1,1,12,30,45,0⟩] ∧
    (⟨2024,1,1,12,30,45,0⟩ : DateT).sec ≠ 0 :=
  ⟨by decide, by rfl, by decide⟩

/-- The expression stored for `"* * 99w * */2,1#9"`. -/
def exprOutOfRangeSpecials : CronExpression :=
  ⟨{all := true}, {all := true}, {nearestWeekdays := [some 99]}, {all := true},
   {steps := [⟨0,7,some 2⟩], nthDays := [⟨1, some 9⟩]}⟩

/-- C5 counterexample: one successful parse stores three values outside the claimed
ranges — a nearest-weekday target of 99 (day_of_month range is 1–31), a day_of_week
step upper endpoint of 7 (claimed range 0–6 after normalization; the parser
deliberately uses 7 for `*` step ends), and an nth-day instance of 9 (claimed
`1 ≤ instance ≤ 5`). -/
theorem parse_stores_out_of_range_values :
    parse "* * 99w * */2,1#9" =
      { success := true, pattern := "* * 99w * */2,1#9",
        expression := some exprOutOfRangeSpecials } ∧
    exprOutOfRangeSpecials.day_of_month.nearestWeekdays = [some 99] ∧
    ¬((99:Int) ≤ (FIELD_INFO .day_of_month).max) ∧
    exprOutOfRangeSpecials.day_of_week.steps = [⟨0,7,some 2⟩] ∧
    ¬((7:Int) ≤ (FIELD_INFO .day_of_week).max) ∧
    exprOutOfRangeSpecials.day_of_week.nthDays = [⟨1, some 9⟩] ∧
    ¬((9:Int) ≤ 5) := by
  refine ⟨by decide, by decide, by decide, by decide, by decide, by decide, by decide⟩

/-- C6 counterexample: parsing the reversed range token `"5-2"` in the minute field
succeeds and stores the range `{from := 5, to := 2}` with `from > to`. -/
theorem parse_stores_reversed_range :
    parse "5-2 * * * *" =
      { success := true, pattern := "5-2 * * * *",
        expression := some ⟨{ranges := [⟨5,2⟩]}, {all := true}, {all := true},
                            {all := true}, {all := true}⟩ } ∧
    ¬((5:Int) ≤ 2) :=
  ⟨by decide, by decide⟩

/-! ## Parser range invariants -/

/-- `v` lies in the declared range of field `f`. -/
def inRangeF (f : FieldType) (v : Int) : Prop :=
  (FIELD_INFO f).min ≤ v ∧ v ≤ (FIELD_INFO f).max

instance (f : FieldType) (v : Int) : Decidable (inRangeF f v) := by
  unfold inRangeF; exact inferInstance

def fieldOf (E : CronExpression) : FieldType → CronMatch
  | .minute => E.minute
  | .hour => E.hour
  | .day_of_month => E.day_of_month
  | .month => E.month
  | .day_of_week => E.day_of_week

/-- The range invariant a successful parse guarantees for one field matcher:
values, range endpoints, step starts, last-day-of-week entries and nth-day weekdays
are in range; a step end is in range except that `day_of_week` steps may end at 7.
(Nearest-weekday targets and nth-day instances are stored unvalidated.) -/
def matchRangeInv (f : FieldType) (m : CronMatch) : Prop :=
  (∀ v ∈ m.values, inRangeF f v) ∧
  (∀ r ∈ m.ranges, inRangeF f r.«from» ∧ inRangeF f r.«to») ∧
  (∀ s ∈ m.steps, inRangeF f s.«from» ∧ (FIELD_INFO f).min ≤ s.«to» ∧
      (s.«to» ≤ (FIELD_INFO f).max ∨ (f = .day_of_week ∧ s.«to» = 7))) ∧
  (∀ v ∈ m.lastDays, inRangeF f v) ∧
  (∀ n ∈ m.nthDays, inRangeF f n.day_of_week)

theorem lookup_val_mem {α : Type} [BEq α] (al : List (α × Int)) (k : α) (v : Int)
    (h : al.lookup k = some v) : v ∈ al.map Prod.snd := by
  induction al with
  | nil => simp [List.lookup] at h
  | cons p rest ih =>
    rw [show (p :: rest) = ((p.1, p.2) :: rest) from rfl] at h
    rw [List.lookup_cons] at h
    split at h
    · simp at h; simp [h]
    · simp [ih h]

theorem alias_vals_inRange (f : FieldType) :
    ∀ v ∈ (FIELD_INFO f).alias.map Prod.snd, v = 0 ∨ inRangeF f v := by
  cases f <;> decide

theorem field_min_le_max (f : FieldType) : (FIELD_INFO f).min ≤ (FIELD_INFO f).max := by
  cases f <;> decide

theorem validateRange_ok {x : Int} {f : FieldType} (h : validateRange x f = .ok ()) :
    inRangeF f x := by
  simp only [validateRange] at h
  split at h
  · exact absurd h (by simp)
  · rename_i hc
    simp only [Bool.or_eq_true, decide_eq_true_eq, not_or] at hc
    exact ⟨by omega, by omega⟩

theorem parseValue_inRange {tok : List Char} {f : FieldType} {v : Int}
    (h : parseValue tok f = .ok v) : inRangeF f v := by
  simp only [parseValue, bind, Except.bind] at h
  split at h
  · -- alias hit with a truthy value
    rename_i w heq
    simp only [Except.ok.injEq] at h
    subst h
    split at heq
    · rename_i u hlook
      split at heq
      · simp only [Option.some.injEq] at heq
        subst heq
        rename_i hu
        rcases alias_vals_inRange f u (lookup_val_mem _ _ _ hlook) with h0 | hr
        · exact absurd h0 hu
        · exact hr
      · cases heq
    · cases heq
  · -- numeric path
    split at h
    · cases h
    · rename_i numValue heqn
      split at h
      · rename_i hcond
        simp only [Except.ok.injEq] at h
        subst h
        simp only [Bool.and_eq_true, beq_iff_eq] at hcond
        rw [hcond.1]
        exact ⟨by decide, by decide⟩
      · cases hvr : validateRange numValue f with
        | error e => rw [hvr] at h; cases h
        | ok u =>
          cases u
          rw [hvr] at h
          simp only [Except.ok.injEq] at h
          subst h
          exact validateRange_ok hvr

theorem parseStep_inv {part : List Char} {f : FieldType} {st : CronStep}
    (h : parseStep part f = .ok st) :
    inRangeF f st.«from» ∧ (FIELD_INFO f).min ≤ st.«to» ∧
      (st.«to» ≤ (FIELD_INFO f).max ∨ (f = .day_of_week ∧ st.«to» = 7)) := by
  simp only [parseStep, bind, Except.bind, pure] at h
  split at h
  · cases h
  · split at h
    · -- `*` head: from = min, to = 7 (dow) or max
      simp only [Except.ok.injEq] at h
      subst h
      dsimp only
      split
      · rename_i hf
        simp only [beq_iff_eq] at hf
        subst hf
        exact ⟨by decide, by decide, Or.inr ⟨rfl, rfl⟩⟩
      · exact ⟨⟨le_refl _, field_min_le_max f⟩, field_min_le_max f, Or.inl (le_refl _)⟩
    · split at h
      · cases h
      · -- explicit head: from via parseValue, to via parseValue or default max
        split at h
        · cases h
        · rename_i fromV heqf
          split at h
          · -- toStr nonempty
            split at h
            · cases h
            · rename_i toV heqt
              cases h
              have h1 := parseValue_inRange heqf
              have h2 := parseValue_inRange heqt
              exact ⟨h1, h2.1, Or.inl h2.2⟩
          · -- toStr empty: default max (7 for day_of_week)
            cases h
            have h1 := parseValue_inRange heqf
            dsimp only
            split
            · rename_i hf
              simp only [beq_iff_eq] at hf
              subst hf
              exact ⟨h1, by decide, Or.inr ⟨rfl, rfl⟩⟩
            · exact ⟨h1, field_min_le_max f, Or.inl (le_refl _)⟩

theorem parseRange_inv {part : List Char} {f : FieldType} {r : CronRange}
    (h : parseRange part f = .ok r) : inRangeF f r.«from» ∧ inRangeF f r.«to» := by
  simp only [parseRange, bind, Except.bind, pure] at h
  split at h
  · cases h
  · split at h
    · cases h
    · rename_i fromV heqf
      split at h
      · cases h
      · rename_i toV heqt
        cases h
        exact ⟨parseValue_inRange heqf, parseValue_inRange heqt⟩

theorem mem_insertAsc {v x : Int} : ∀ {l : List Int}, x ∈ insertAsc v l → x = v ∨ x ∈ l := by
  intro l
  induction l with
  | nil => intro h; simp [insertAsc] at h; exact Or.inl h
  | cons a rest ih =>
    intro h
    unfold insertAsc at h
    split at h
    · simp only [List.mem_cons] at h
      rcases h with h | h
      · exact Or.inl h
      · exact Or.inr (List.mem_cons.mpr h)
    · simp only [List.mem_cons] at h
      rcases h with h | h
      · exact Or.inr (List.mem_cons.mpr (Or.inl h))
      · rcases ih h with h2 | h2
        · exact Or.inl h2
        · exact Or.inr (List.mem_cons.mpr (Or.inr h2))

theorem mem_sortAsc {x : Int} : ∀ {l : List Int}, x ∈ sortAsc l → x ∈ l := by
  intro l
  induction l with
  | nil => intro h; simp [sortAsc] at h
  | cons a rest ih =>
    intro h
    unfold sortAsc at h
    rw [List.foldr_cons] at h
    rcases mem_insertAsc h with h2 | h2
    · simp [h2]
    · exact List.mem_cons.mpr (Or.inr (ih h2))

theorem mem_dedupAppend {x : Int} : ∀ {nv vs : List Int},
    x ∈ nv.foldl (fun acc v => if acc.contains v then acc else acc ++ [v]) vs →
      x ∈ vs ∨ x ∈ nv := by
  intro nv
  induction nv with
  | nil => intro vs h; exact Or.inl h
  | cons a rest ih =>
    intro vs h
    rw [List.foldl_cons] at h
    rcases ih h with h2 | h2
    · split at h2
      · exact Or.inl h2
      · rcases List.mem_append.mp h2 with h3 | h3
        · exact Or.inl h3
        · simp at h3; simp [h3]
    · simp [h2]

theorem mem_addUniqueValues {x : Int} {vs nv : List Int}
    (h : x ∈ addUniqueValues vs nv) : x ∈ vs ∨ x ∈ nv := by
  unfold addUniqueValues at h
  exact mem_dedupAppend (mem_sortAsc h)

theorem mem_addUniqueRanges {x : CronRange} : ∀ {nr rs : List CronRange},
    x ∈ addUniqueRanges rs nr → x ∈ rs ∨ x ∈ nr := by
  intro nr
  unfold addUniqueRanges
  induction nr with
  | nil => intro rs h; exact Or.inl h
  | cons a rest ih =>
    intro rs h
    rw [List.foldl_cons] at h
    rcases ih h with h2 | h2
    · split at h2
      · exact Or.inl h2
      · rcases List.mem_append.mp h2 with h3 | h3
        · exact Or.inl h3
        · simp at h3; simp [h3]
    · simp [h2]

theorem matchRangeInv_empty (f : FieldType) : matchRangeInv f {} := by
  simp [matchRangeInv]

theorem matchRangeInv_all (f : FieldType) : matchRangeInv f {all := true} := by
  simp [matchRangeInv]

theorem matchRangeInv_omit (f : FieldType) : matchRangeInv f {«omit» := true} := by
  simp [matchRangeInv]

theorem parseFieldSub_inv {f : FieldType} {acc : CronMatch} {sub : List Char}
    {m : CronMatch} (hacc : matchRangeInv f acc)
    (h : parseFieldSub f acc sub = .ok m) : matchRangeInv f m := by
  obtain ⟨hv, hr, hs, hl, hn⟩ := hacc
  simp only [parseFieldSub, bind, Except.bind, pure] at h
  split at h
  · cases h; exact ⟨hv, hr, hs, hl, hn⟩
  · split at h
    · cases h; exact ⟨hv, hr, hs, hl, hn⟩
    · split at h
      · cases h; exact ⟨hv, hr, hs, hl, hn⟩
      · split at h
        · -- day_of_week `<d>l`
          split at h
          · cases h
          · rename_i day heq
            cases h
            refine ⟨hv, hr, hs, ?_, hn⟩
            intro v hvm
            rcases List.mem_append.mp hvm with h2 | h2
            · exact hl v h2
            · simp at h2; subst h2; exact parseValue_inRange heq
        · split at h
          · -- day_of_week `<d>#<k>`
            split at h
            · cases h
            · split at h
              · cases h
              · rename_i day heq
                cases h
                refine ⟨hv, hr, hs, hl, ?_⟩
                intro n hnm
                rcases List.mem_append.mp hnm with h2 | h2
                · exact hn n h2
                · simp at h2; subst h2; exact parseValue_inRange heq
          · split at h
            · -- step clause
              split at h
              · cases h
              · rename_i st heq
                cases h
                refine ⟨hv, hr, ?_, hl, hn⟩
                intro x hxm
                rcases List.mem_append.mp hxm with h2 | h2
                · exact hs x h2
                · simp at h2; subst h2; exact parseStep_inv heq
            · split at h
              · -- range clause
                split at h
                · cases h
                · rename_i rg heq
                  cases h
                  refine ⟨hv, ?_, hs, hl, hn⟩
                  intro x hxm
                  rcases mem_addUniqueRanges hxm with h2 | h2
                  · exact hr x h2
                  · simp at h2; subst h2; exact parseRange_inv heq
              · -- single value
                split at h
                · cases h
                · rename_i v0 heq
                  cases h
                  refine ⟨?_, hr, hs, hl, hn⟩
                  intro x hxm
                  rcases mem_addUniqueValues hxm with h2 | h2
                  · exact hv x h2
                  · simp at h2; subst h2; exact parseValue_inRange heq

theorem foldlM_parseFieldSub_inv {f : FieldType} :
    ∀ {subs : List (List Char)} {acc m : CronMatch},
      matchRangeInv f acc → List.foldlM (parseFieldSub f) acc subs = .ok m →
        matchRangeInv f m := by
  intro subs
  induction subs with
  | nil =>
    intro acc m h1 h2
    simp only [List.foldlM_nil] at h2
    cases h2
    exact h1
  | cons a rest ih =>
    intro acc m h1 h2
    rw [List.foldlM_cons] at h2
    cases hstep : parseFieldSub f acc a with
    | error e => rw [hstep] at h2; cases h2
    | ok acc2 =>
      rw [hstep] at h2
      exact ih (parseFieldSub_inv h1 hstep) h2

theorem parseField_inv {part : List Char} {f : FieldType} {m : CronMatch}
    (h : parseField part f = .ok m) : matchRangeInv f m := by
  simp only [parseField] at h
  split at h
  · cases h; exact matchRangeInv_all f
  · split at h
    · cases h; exact matchRangeInv_omit f
    · exact foldlM_parseFieldSub_inv (matchRangeInv_empty f) h

/-- Every successful parse satisfies the per-field range invariant. -/
theorem parse_fields_inv (s : String) (E : CronExpression)
    (h : (parse s).expression = some E) :
    ∀ f ∈ CronFields, matchRangeInv f (fieldOf E f) := by
  simp only [parse] at h
  split at h
  · cases h
  · split at h
    · cases h
    · split at h
      · -- the do-block succeeded
        rename_i e heqr
        cases h
        simp only [bind, Except.bind, pure] at heqr
        split at heqr
        · cases heqr
        rename_i mn heq1
        split at heqr
        · cases heqr
        rename_i hrr heq2
        split at heqr
        · cases heqr
        rename_i dm heq3
        split at heqr
        · cases heqr
        rename_i mo heq4
        split at heqr
        · -- explicit fifth field
          split at heqr
          · cases heqr
          · rename_i dw heq5
            cases heqr
            intro f hf
            simp only [CronFields, List.mem_cons, List.not_mem_nil, or_false] at hf
            rcases hf with rfl | rfl | rfl | rfl | rfl
            · exact parseField_inv heq1
            · exact parseField_inv heq2
            · exact parseField_inv heq3
            · exact parseField_inv heq4
            · exact parseField_inv heq5
        · -- four fields: day_of_week defaults to Any
          cases heqr
          intro f hf
          simp only [CronFields, List.mem_cons, List.not_mem_nil, or_false] at hf
          rcases hf with rfl | rfl | rfl | rfl | rfl
          · exact parseField_inv heq1
          · exact parseField_inv heq2
          · exact parseField_inv heq3
          · exact parseField_inv heq4
          · exact matchRangeInv_all _
      · cases h

/-! ## The parser at JavaScript value fidelity (C5, C6)

`parseValue`'s alias test `cleanValue in info.alias && info.alias[cleanValue]` uses
the JavaScript `in` operator, which consults the prototype chain: besides the listed
keys, the all-lowercase inherited keys `constructor` and `__proto__` of
`Object.prototype` satisfy it, and the corresponding property values
(`Object.prototype.constructor` and `Object.prototype`) are truthy, so `parseValue`
returns them — non-numbers typed as `number` — with no range validation.  The
`Int`-valued parser above covers only the numeric executions; this section
transcribes the parser once more with stored values at JavaScript fidelity, and the
stored-value invariants are stated over it. -/

/-- A value as the source parser stores it: a number, or one of the two objects
reachable through the alias record's prototype chain. -/
inductive JsVal where
  | num (n : Int)
  | objectConstructor      -- `Object.prototype.constructor`, for the token `constructor`
  | objectPrototype        -- `Object.prototype`, for the token `__proto__`
deriving Repr, DecidableEq

structure CronRangeJ where
  «from» : JsVal
  «to» : JsVal
deriving Repr, DecidableEq

structure CronStepJ where
  «from» : JsVal
  «to» : JsVal
  step : Option Int
deriving Repr, DecidableEq

structure CronNthJ where
  day_of_week : JsVal
  inst : Option Int
deriving Repr, DecidableEq

structure CronMatchJ where
  all : Bool := false
  «omit» : Bool := false
  ranges : List CronRangeJ := []
  steps : List CronStepJ := []
  nthDays : List CronNthJ := []
  values : List JsVal := []
  lastDay : Bool := false
  lastDays : List JsVal := []
  lastWeekday : Bool := false
  nearestWeekdays : List (Option Int) := []
deriving Repr, DecidableEq

structure CronExpressionJ where
  minute : CronMatchJ
  hour : CronMatchJ
  day_of_month : CronMatchJ
  month : CronMatchJ
  day_of_week : CronMatchJ
deriving Repr, DecidableEq

structure ParsedCronExpressionJ where
  success : Bool
  pattern : String
  expression : Option CronExpressionJ := none
  error : Option String := none
deriving Repr, DecidableEq

/-- `parseValue` with the prototype-chain hits of the alias test: when the field has
an alias record, the inherited keys `constructor` and `__proto__` pass
`cleanValue in info.alias` and their values are truthy, so they are returned directly
(no range validation); a listed alias with value `0` (`sun`) is falsy and falls
through to the numeric path, exactly as in `parseValue`. -/
def parseValueJ (value : List Char) (field : FieldType) : Except String JsVal :=
  let info := FIELD_INFO field
  let cleanValue := toLowerL value
  let aliasHit : Option JsVal :=
    if info.«alias» = [] then none          -- `info.alias &&` (no alias record)
    else if cleanValue = "constructor".data then some .objectConstructor
    else if cleanValue = "__proto__".data then some .objectPrototype
    else match info.«alias».lookup cleanValue with
      | some v => if v ≠ 0 then some (.num v) else none
      | none => none
  match aliasHit with
  | some v => .ok v
  | none =>
    match jsParseInt value with
    | none =>
      .error ("Invalid numeric value [" ++ String.mk value ++ "] for field [" ++
        fieldName field ++ "]")
    | some numValue =>
      if field == .day_of_week && numValue == 7 then .ok (.num 0)
      else
        Except.bind (validateRange numValue field) (fun _ => .ok (.num numValue))

def parseStepJ (part : List Char) (field : FieldType) : Except String CronStepJ :=
  let sp := splitOnChar '/' part
  let range := sp.headD []
  let stepStr := (sp.drop 1).headD []
  if range = [] || stepStr = [] then
    .error ("Invalid step format [" ++ String.mk part ++ "] for field [" ++
      fieldName field ++ "]. Expected format: \"from/to/step\".")
  else
    let step := jsParseInt stepStr
    if range = ['*'] then
      let mx := if field == .day_of_week then 7 else (FIELD_INFO field).max
      .ok ⟨.num (FIELD_INFO field).min, .num mx, step⟩
    else
      let sp2 := splitOnChar '-' range
      let fromStr := sp2.headD []
      let toStr := (sp2.drop 1).headD []
      if fromStr = [] then
        .error ("Invalid step format [" ++ String.mk part ++ "] for field [" ++
          fieldName field ++ "]. Expected format: \"from/to/step\".")
      else do
        let fromV ← parseValueJ fromStr field
        let defaultMax : Int := if field == .day_of_week then 7 else (FIELD_INFO field).max
        let toV ← if toStr ≠ [] then parseValueJ toStr field else pure (.num defaultMax)
        pure ⟨fromV, toV, step⟩

def parseRangeJ (part : List Char) (field : FieldType) : Except String CronRangeJ :=
  let sp := splitOnChar '-' part
  let fromStr := sp.headD []
  let toStr := (sp.drop 1).headD []
  if fromStr = [] || toStr = [] then
    .error ("Invalid range format [" ++ String.mk part ++ "] for field [" ++
      fieldName field ++ "]. Expected format: \"from-to\".")
  else do
    let fromV ← parseValueJ fromStr field
    let toV ← parseValueJ toStr field
    pure ⟨fromV, toV⟩

/-- The sort comparator `(a, b) => a - b` coerces the junk objects to `NaN`, which
`SortCompare` treats as `+0`; such a comparator is inconsistent, so the stored order
around junk entries is implementation-defined.  The model fixes one order by
insertion; the invariants below use only membership. -/
def jsLeB : JsVal → JsVal → Bool
  | .num a, .num b => a ≤ b
  | _, _ => true

def insertAscJ (v : JsVal) : List JsVal → List JsVal
  | [] => [v]
  | x :: xs => if jsLeB v x then v :: x :: xs else x :: insertAscJ v xs

def sortAscJ (l : List JsVal) : List JsVal := l.foldr insertAscJ []

def addUniqueValuesJ (values newValues : List JsVal) : List JsVal :=
  sortAscJ (newValues.foldl (fun acc v => if acc.contains v then acc else acc ++ [v]) values)

/-- Dedup by the template key `from + "-" + to`: numbers stringify by value and the
two junk objects have distinct fixed string forms, so the key determines the pair. -/
def addUniqueRangesJ (ranges newRanges : List CronRangeJ) : List CronRangeJ :=
  newRanges.foldl (fun acc r => if acc.contains r then acc else acc ++ [r]) ranges

def parseFieldSubJ (field : FieldType) (result : CronMatchJ) (subPart : List Char) :
    Except String CronMatchJ :=
  if subPart = ['l'] && field == .day_of_month then
    .ok { result with lastDay := true }
  else if subPart = ['l', 'w'] && field == .day_of_month then
    .ok { result with lastWeekday := true }
  else if subPart.getLast? == some 'w' && field == .day_of_month then
    .ok { result with nearestWeekdays := result.nearestWeekdays ++ [jsParseInt subPart.dropLast] }
  else if subPart.getLast? == some 'l' && field == .day_of_week then do
    let day ← parseValueJ subPart.dropLast field
    pure { result with lastDays := result.lastDays ++ [day] }
  else if subPart.contains '#' && field == .day_of_week then
    let sp := splitOnChar '#' subPart
    let dayStr := sp.headD []
    let instanceStr := (sp.drop 1).headD []
    if dayStr = [] || instanceStr = [] then
      .error ("Invalid nth day format [" ++ String.mk subPart ++ "] for field [" ++
        fieldName field ++ "]. Expected format: \"day#instance\".")
    else do
      let day ← parseValueJ dayStr field
      pure { result with nthDays := result.nthDays ++ [⟨day, jsParseInt instanceStr⟩] }
  else if subPart.contains '/' then do
    let s ← parseStepJ subPart field
    pure { result with steps := result.steps ++ [s] }
  else if subPart.contains '-' then do
    let r ← parseRangeJ subPart field
    pure { result with ranges := addUniqueRangesJ result.ranges [r] }
  else do
    let v ← parseValueJ subPart field
    pure { result with values := addUniqueValuesJ result.values [v] }

def parseFieldJ (part : List Char) (field : FieldType) : Except String CronMatchJ :=
  if part = ['*'] then .ok { all := true }
  else if part = ['?'] then .ok { «omit» := true }
  else
    let normalizedPart := if field == .day_of_week then normalizeDowNames part else part
    let parts := splitOnChar ',' (toLowerL normalizedPart)
    parts.foldlM (parseFieldSubJ field) {}

def parseJ (expression : String) : ParsedCronExpressionJ :=
  if expression = "" then
    { success := false, pattern := expression, error := some "Empty expression" }
  else
    let parts := splitExpression expression.data
    if parts.length < 4 || parts.length > 5 then
      { success := false, pattern := expression,
        error := some ("Invalid cron expression [" ++ expression ++
          "]. Expected [4 to 5] fields but found [" ++ toString parts.length ++ "] fields.") }
    else
      let r : Except String CronExpressionJ := do
        let mn ← parseFieldJ (parts.getD 0 []) .minute
        let hr ← parseFieldJ (parts.getD 1 []) .hour
        let dm ← parseFieldJ (parts.getD 2 []) .day_of_month
        let mo ← parseFieldJ (parts.getD 3 []) .month
        let dw ← if parts.getD 4 [] ≠ [] then parseFieldJ (parts.getD 4 []) .day_of_week
                 else pure { all := true }
        pure ⟨mn, hr, dm, mo, dw⟩
      match r with
      | .ok e => { success := true, pattern := expression, expression := some e }
      | .error msg =>
        { success := false, pattern := expression,
          error := some ("Invalid cron expression [" ++ expression ++ "]. " ++ msg) }

/-- Off the two prototype-chain tokens, `parseValueJ` is `parseValue` with the number
wrapped: the only behavioral difference between the two parsers is the junk hit. -/
theorem parseValueJ_agrees (tok : List Char) (f : FieldType)
    (h1 : toLowerL tok ≠ "constructor".data) (h2 : toLowerL tok ≠ "__proto__".data) :
    parseValueJ tok f = Except.map JsVal.num (parseValue tok f) := by
  simp only [parseValueJ, parseValue]
  have key : (if (FIELD_INFO f).«alias» = [] then (none : Option JsVal)
      else if toLowerL tok = "constructor".data then some .objectConstructor
      else if toLowerL tok = "__proto__".data then some .objectPrototype
      else match (FIELD_INFO f).«alias».lookup (toLowerL tok) with
        | some v => if v ≠ 0 then some (.num v) else none
        | none => none) =
      Option.map JsVal.num (match (FIELD_INFO f).«alias».lookup (toLowerL tok) with
        | some v => if v ≠ 0 then some v else none
        | none => none) := by
    split
    · rename_i he
      rw [he]
      rfl
    · -- `split` discharges the two junk conditions with `h1`, `h2`
      cases hlk : (FIELD_INFO f).«alias».lookup (toLowerL tok) with
      | none => rfl
      | some v =>
        by_cases hv : v ≠ 0
        · simp [hv]
        · simp [hv]
  rw [key]
  cases hM : (match (FIELD_INFO f).«alias».lookup (toLowerL tok) with
      | some v => if v ≠ 0 then some v else none
      | none => (none : Option Int)) with
  | some v => rfl
  | none =>
    dsimp only [Option.map]
    cases hpi : jsParseInt tok with
    | none => rfl
    | some n =>
      dsimp only
      split
      · rfl
      · cases hvr : validateRange n f with
        | error e => rfl
        | ok u => cases u; rfl

/-- A stored value is an in-range number, or one of the two prototype-chain objects
(which the source stores with no validation at all). -/
def jsInRange (f : FieldType) : JsVal → Prop
  | .num n => inRangeF f n
  | .objectConstructor => True
  | .objectPrototype => True

instance (f : FieldType) : (v : JsVal) → Decidable (jsInRange f v)
  | .num n => inferInstanceAs (Decidable (inRangeF f n))
  | .objectConstructor => .isTrue trivial
  | .objectPrototype => .isTrue trivial

/-- The step-`to` variant: a numeric step end is in range except that `day_of_week`
steps may end at 7. -/
def stepToInvJ (f : FieldType) : JsVal → Prop
  | .num n => (FIELD_INFO f).min ≤ n ∧
      (n ≤ (FIELD_INFO f).max ∨ (f = .day_of_week ∧ n = 7))
  | .objectConstructor => True
  | .objectPrototype => True

instance (f : FieldType) : (v : JsVal) → Decidable (stepToInvJ f v)
  | .num n => inferInstanceAs (Decidable ((FIELD_INFO f).min ≤ n ∧
      (n ≤ (FIELD_INFO f).max ∨ (f = .day_of_week ∧ n = 7))))
  | .objectConstructor => .isTrue trivial
  | .objectPrototype => .isTrue trivial

def fieldOfJ (E : CronExpressionJ) : FieldType → CronMatchJ
  | .minute => E.minute
  | .hour => E.hour
  | .day_of_month => E.day_of_month
  | .month => E.month
  | .day_of_week => E.day_of_week

/-- The stored-value invariant a successful parse guarantees for one field matcher. -/
def matchRangeInvJ (f : FieldType) (m : CronMatchJ) : Prop :=
  (∀ v ∈ m.values, jsInRange f v) ∧
  (∀ r ∈ m.ranges, jsInRange f r.«from» ∧ jsInRange f r.«to») ∧
  (∀ s ∈ m.steps, jsInRange f s.«from» ∧ stepToInvJ f s.«to») ∧
  (∀ v ∈ m.lastDays, jsInRange f v) ∧
  (∀ n ∈ m.nthDays, jsInRange f n.day_of_week)

theorem parseValueJ_inRange {tok : List Char} {f : FieldType} {v : JsVal}
    (h : parseValueJ tok f = .ok v) : jsInRange f v := by
  simp only [parseValueJ, bind, Except.bind] at h
  split at h
  · rename_i w heq
    simp only [Except.ok.injEq] at h
    subst h
    split at heq
    · cases heq
    · split at heq
      · simp only [Option.some.injEq] at heq
        subst heq
        trivial
      · split at heq
        · simp only [Option.some.injEq] at heq
          subst heq
          trivial
        · split at heq
          · rename_i u hlook
            split at heq
            · simp only [Option.some.injEq] at heq
              subst heq
              rename_i hu
              rcases alias_vals_inRange f u (lookup_val_mem _ _ _ hlook) with h0 | hr
              · exact absurd h0 hu
              · exact hr
            · cases heq
          · cases heq
  · split at h
    · cases h
    · rename_i numValue heqn
      split at h
      · rename_i hcond
        simp only [Except.ok.injEq] at h
        subst h
        simp only [Bool.and_eq_true, beq_iff_eq] at hcond
        rw [hcond.1]
        exact ⟨by decide, by decide⟩
      · cases hvr : validateRange numValue f with
        | error e => rw [hvr] at h; cases h
        | ok u =>
          cases u
          rw [hvr] at h
          simp only [Except.ok.injEq] at h
          subst h
          exact validateRange_ok hvr

theorem jsInRange_stepTo {f : FieldType} {v : JsVal} (h : jsInRange f v) :
    stepToInvJ f v := by
  cases v with
  | num n => exact ⟨h.1, Or.inl h.2⟩
  | objectConstructor => trivial
  | objectPrototype => trivial

theorem parseStepJ_inv {part : List Char} {f : FieldType} {st : CronStepJ}
    (h : parseStepJ part f = .ok st) :
    jsInRange f st.«from» ∧ stepToInvJ f st.«to» := by
  simp only [parseStepJ, bind, Except.bind, pure] at h
  split at h
  · cases h
  · split at h
    · -- `*` head: from = min, to = 7 (dow) or max
      simp only [Except.ok.injEq] at h
      subst h
      dsimp only
      split
      · rename_i hf
        simp only [beq_iff_eq] at hf
        subst hf
        exact ⟨⟨by decide, by decide⟩, by decide, Or.inr ⟨rfl, rfl⟩⟩
      · exact ⟨⟨le_refl _, field_min_le_max f⟩, field_min_le_max f, Or.inl (le_refl _)⟩
    · split at h
      · cases h
      · split at h
        · cases h
        · rename_i fromV heqf
          split at h
          · split at h
            · cases h
            · rename_i toV heqt
              cases h
              exact ⟨parseValueJ_inRange heqf, jsInRange_stepTo (parseValueJ_inRange heqt)⟩
          · cases h
            have h1 := parseValueJ_inRange heqf
            dsimp only
            split
            · rename_i hf
              simp only [beq_iff_eq] at hf
              subst hf
              exact ⟨h1, by decide, Or.inr ⟨rfl, rfl⟩⟩
            · exact ⟨h1, field_min_le_max f, Or.inl (le_refl _)⟩

theorem parseRangeJ_inv {part : List Char} {f : FieldType} {r : CronRangeJ}
    (h : parseRangeJ part f = .ok r) : jsInRange f r.«from» ∧ jsInRange f r.«to» := by
  simp only [parseRangeJ, bind, Except.bind, pure] at h
  split at h
  · cases h
  · split at h
    · cases h
    · rename_i fromV heqf
      split at h
      · cases h
      · rename_i toV heqt
        cases h
        exact ⟨parseValueJ_inRange heqf, parseValueJ_inRange heqt⟩

theorem mem_insertAscJ {v x : JsVal} : ∀ {l : List JsVal},
    x ∈ insertAscJ v l → x = v ∨ x ∈ l := by
  intro l
  induction l with
  | nil => intro h; simp [insertAscJ] at h; exact Or.inl h
  | cons a rest ih =>
    intro h
    unfold insertAscJ at h
    split at h
    · simp only [List.mem_cons] at h
      rcases h with h | h
      · exact Or.inl h
      · exact Or.inr (List.mem_cons.mpr h)
    · simp only [List.mem_cons] at h
      rcases h with h | h
      · exact Or.inr (List.mem_cons.mpr (Or.inl h))
      · rcases ih h with h2 | h2
        · exact Or.inl h2
        · exact Or.inr (List.mem_cons.mpr (Or.inr h2))

theorem mem_sortAscJ {x : JsVal} : ∀ {l : List JsVal}, x ∈ sortAscJ l → x ∈ l := by
  intro l
  induction l with
  | nil => intro h; simp [sortAscJ] at h
  | cons a rest ih =>
    intro h
    unfold sortAscJ at h
    rw [List.foldr_cons] at h
    rcases mem_insertAscJ h with h2 | h2
    · simp [h2]
    · exact List.mem_cons.mpr (Or.inr (ih h2))

theorem mem_dedupAppendJ {x : JsVal} : ∀ {nv vs : List JsVal},
    x ∈ nv.foldl (fun acc v => if acc.contains v then acc else acc ++ [v]) vs →
      x ∈ vs ∨ x ∈ nv := by
  intro nv
  induction nv with
  | nil => intro vs h; exact Or.inl h
  | cons a rest ih =>
    intro vs h
    rw [List.foldl_cons] at h
    rcases ih h with h2 | h2
    · split at h2
      · exact Or.inl h2
      · rcases List.mem_append.mp h2 with h3 | h3
        · exact Or.inl h3
        · simp at h3; simp [h3]
    · simp [h2]

theorem mem_addUniqueValuesJ {x : JsVal} {vs nv : List JsVal}
    (h : x ∈ addUniqueValuesJ vs nv) : x ∈ vs ∨ x ∈ nv := by
  unfold addUniqueValuesJ at h
  exact mem_dedupAppendJ (mem_sortAscJ h)

theorem mem_addUniqueRangesJ {x : CronRangeJ} : ∀ {nr rs : List CronRangeJ},
    x ∈ addUniqueRangesJ rs nr → x ∈ rs ∨ x ∈ nr := by
  intro nr
  unfold addUniqueRangesJ
  induction nr with
  | nil => intro rs h; exact Or.inl h
  | cons a rest ih =>
    intro rs h
    rw [List.foldl_cons] at h
    rcases ih h with h2 | h2
    · split at h2
      · exact Or.inl h2
      · rcases List.mem_append.mp h2 with h3 | h3
        · exact Or.inl h3
        · simp at h3; simp [h3]
    · simp [h2]

theorem matchRangeInvJ_empty (f : FieldType) : matchRangeInvJ f {} := by
  simp [matchRangeInvJ]

theorem matchRangeInvJ_all (f : FieldType) : matchRangeInvJ f {all := true} := by
  simp [matchRangeInvJ]

theorem matchRangeInvJ_omit (f : FieldType) : matchRangeInvJ f {«omit» := true} := by
  simp [matchRangeInvJ]

theorem parseFieldSubJ_inv {f : FieldType} {acc : CronMatchJ} {sub : List Char}
    {m : CronMatchJ} (hacc : matchRangeInvJ f acc)
    (h : parseFieldSubJ f acc sub = .ok m) : matchRangeInvJ f m := by
  obtain ⟨hv, hr, hs, hl, hn⟩ := hacc
  simp only [parseFieldSubJ, bind, Except.bind, pure] at h
  split at h
  · cases h; exact ⟨hv, hr, hs, hl, hn⟩
  · split at h
    · cases h; exact ⟨hv, hr, hs, hl, hn⟩
    · split at h
      · cases h; exact ⟨hv, hr, hs, hl, hn⟩
      · split at h
        · -- day_of_week `<d>l`
          split at h
          · cases h
          · rename_i day heq
            cases h
            refine ⟨hv, hr, hs, ?_, hn⟩
            intro v hvm
            rcases List.mem_append.mp hvm with h2 | h2
            · exact hl v h2
            · simp at h2; subst h2; exact parseValueJ_inRange heq
        · split at h
          · -- day_of_week `<d>#<k>`
            split at h
            · cases h
            · split at h
              · cases h
              · rename_i day heq
                cases h
                refine ⟨hv, hr, hs, hl, ?_⟩
                intro n hnm
                rcases List.mem_append.mp hnm with h2 | h2
                · exact hn n h2
                · simp at h2; subst h2; exact parseValueJ_inRange heq
          · split at h
            · -- step clause
              split at h
              · cases h
              · rename_i st heq
                cases h
                refine ⟨hv, hr, ?_, hl, hn⟩
                intro x hxm
                rcases List.mem_append.mp hxm with h2 | h2
                · exact hs x h2
                · simp at h2; subst h2; exact parseStepJ_inv heq
            · split at h
              · -- range clause
                split at h
                · cases h
                · rename_i rg heq
                  cases h
                  refine ⟨hv, ?_, hs, hl, hn⟩
                  intro x hxm
                  rcases mem_addUniqueRangesJ hxm with h2 | h2
                  · exact hr x h2
                  · simp at h2; subst h2; exact parseRangeJ_inv heq
              · -- single value
                split at h
                · cases h
                · rename_i v0 heq
                  cases h
                  refine ⟨?_, hr, hs, hl, hn⟩
                  intro x hxm
                  rcases mem_addUniqueValuesJ hxm with h2 | h2
                  · exact hv x h2
                  · simp at h2; subst h2; exact parseValueJ_inRange heq

theorem foldlM_parseFieldSubJ_inv {f : FieldType} :
    ∀ {subs : List (List Char)} {acc m : CronMatchJ},
      matchRangeInvJ f acc → List.foldlM (parseFieldSubJ f) acc subs = .ok m →
        matchRangeInvJ f m := by
  intro subs
  induction subs with
  | nil =>
    intro acc m h1 h2
    simp only [List.foldlM_nil] at h2
    cases h2
    exact h1
  | cons a rest ih =>
    intro acc m h1 h2
    rw [List.foldlM_cons] at h2
    cases hstep : parseFieldSubJ f acc a with
    | error e => rw [hstep] at h2; cases h2
    | ok acc2 =>
      rw [hstep] at h2
      exact ih (parseFieldSubJ_inv h1 hstep) h2

theorem parseFieldJ_inv {part : List Char} {f : FieldType} {m : CronMatchJ}
    (h : parseFieldJ part f = .ok m) : matchRangeInvJ f m := by
  simp only [parseFieldJ] at h
  split at h
  · cases h; exact matchRangeInvJ_all f
  · split at h
    · cases h; exact matchRangeInvJ_omit f
    · exact foldlM_parseFieldSubJ_inv (matchRangeInvJ_empty f) h

/-- Every successful parse satisfies the per-field stored-value invariant. -/
theorem parseJ_fields_inv (s : String) (E : CronExpressionJ)
    (h : (parseJ s).expression = some E) :
    ∀ f ∈ CronFields, matchRangeInvJ f (fieldOfJ E f) := by
  simp only [parseJ] at h
  split at h
  · cases h
  · split at h
    · cases h
    · split at h
      · -- the do-block succeeded
        rename_i e heqr
        cases h
        simp only [bind, Except.bind, pure] at heqr
        split at heqr
        · cases heqr
        rename_i mn heq1
        split at heqr
        · cases heqr
        rename_i hrr heq2
        split at heqr
        · cases heqr
        rename_i dm heq3
        split at heqr
        · cases heqr
        rename_i mo heq4
        split at heqr
        · -- explicit fifth field
          split at heqr
          · cases heqr
          · rename_i dw heq5
            cases heqr
            intro f hf
            simp only [CronFields, List.mem_cons, List.not_mem_nil, or_false] at hf
            rcases hf with rfl | rfl | rfl | rfl | rfl
            · exact parseFieldJ_inv heq1
            · exact parseFieldJ_inv heq2
            · exact parseFieldJ_inv heq3
            · exact parseFieldJ_inv heq4
            · exact parseFieldJ_inv heq5
        · -- four fields: day_of_week defaults to Any
          cases heqr
          intro f hf
          simp only [CronFields, List.mem_cons, List.not_mem_nil, or_false] at hf
          rcases hf with rfl | rfl | rfl | rfl | rfl
          · exact parseFieldJ_inv heq1
          · exact parseFieldJ_inv heq2
          · exact parseFieldJ_inv heq3
          · exact parseFieldJ_inv heq4
          · exact matchRangeInvJ_all _
      · cases h

/-- C5 as amended: on every successful parse, every stored value — in `values`, both
range endpoints, step ends, `lastDays` entries, `nthDays` weekdays — is either a
number within the field's declared range (aliases resolved, `7 → 0` normalized;
a `day_of_week` step may end at the number 7) or one of the two non-numeric objects
that the alias test accepts through the JavaScript prototype chain (`constructor` ↦
`Object.prototype.constructor`, `__proto__` ↦ `Object.prototype`), stored with no
validation; `"* * * * constructor"` indeed parses successfully, storing
`Object.prototype.constructor` as a day-of-week value.  `nearestWeekdays` targets and
`nthDays` instances carry no guarantee (see `parse_stores_out_of_range_values`). -/
theorem parse_value_range_invariant :
    (∀ (s : String) (E : CronExpressionJ), (parseJ s).expression = some E →
      ∀ f ∈ CronFields, matchRangeInvJ f (fieldOfJ E f)) ∧
    (parseJ "* * * * constructor").expression =
      some ⟨{all := true}, {all := true}, {all := true}, {all := true},
            {values := [.objectConstructor]}⟩ :=
  ⟨parseJ_fields_inv, by decide⟩

/-- Witness for `parse_value_range_invariant` on the junk parse itself. -/
theorem parse_value_range_invariant_w :
    matchRangeInvJ .day_of_week
      (fieldOfJ ⟨{all := true}, {all := true}, {all := true}, {all := true},
                 {values := [.objectConstructor]}⟩ .day_of_week) :=
  parse_value_range_invariant.1 "* * * * constructor"
    ⟨{all := true}, {all := true}, {all := true}, {all := true},
     {values := [.objectConstructor]}⟩ (by decide) .day_of_week (by decide)

/-- C6 as amended: each stored range endpoint is individually an in-range number or
one of the two prototype-chain objects (`"* * * jan-constructor *"` parses, storing
the month range `{from: 1, to: Object.prototype.constructor}`); `from ≤ to` is not
guaranteed (see `parse_stores_reversed_range`), and a stored reversed range accepts
no value in the matcher's interval test. -/
theorem parse_range_endpoints_in_range :
    (∀ (s : String) (E : CronExpressionJ), (parseJ s).expression = some E →
      ∀ f ∈ CronFields, ∀ r ∈ (fieldOfJ E f).ranges,
        jsInRange f r.«from» ∧ jsInRange f r.«to») ∧
    (parseJ "* * * jan-constructor *").expression =
      some ⟨{all := true}, {all := true}, {all := true},
            {ranges := [⟨.num 1, .objectConstructor⟩]}, {all := true}⟩ ∧
    (∀ (r : CronRange) (v : Int), r.«to» < r.«from» →
      (v ≥ r.«from» && v ≤ r.«to») = false) := by
  refine ⟨fun s E h f hf r hr => (parseJ_fields_inv s E h f hf).2.1 r hr, by decide, ?_⟩
  intro r v hlt
  by_cases h1 : v ≥ r.«from»
  · have h2 : ¬(v ≤ r.«to») := by omega
    simp [h2]
  · simp [h1]

/-- Witness for `parse_range_endpoints_in_range` on the junk range parse and the
reversed range `5-2`. -/
theorem parse_range_endpoints_in_range_w :
    (jsInRange .month (JsVal.num 1) ∧ jsInRange .month JsVal.objectConstructor) ∧
      (((3:Int) ≥ (5:Int) && (3:Int) ≤ (2:Int)) = false) :=
  ⟨parse_range_endpoints_in_range.1 "* * * jan-constructor *"
      ⟨{all := true}, {all := true}, {all := true},
       {ranges := [⟨.num 1, .objectConstructor⟩]}, {all := true}⟩
      (by decide) .month (by decide) ⟨.num 1, .objectConstructor⟩ (by decide),
   parse_range_endpoints_in_range.2.2 ⟨5,2⟩ 3 (by decide)⟩

/-! ## Seconds and milliseconds through the engine -/

theorem addDaysOne_time (d : DateT) :
    (addDaysOne d).hour = d.hour ∧ (addDaysOne d).minute = d.minute ∧
      (addDaysOne d).sec = d.sec ∧ (addDaysOne d).ms = d.ms := by
  unfold addDaysOne; split_ifs <;> simp

theorem subDaysOne_time (d : DateT) :
    (subDaysOne d).hour = d.hour ∧ (subDaysOne d).minute = d.minute ∧
      (subDaysOne d).sec = d.sec ∧ (subDaysOne d).ms = d.ms := by
  unfold subDaysOne; split_ifs <;> simp

theorem addDaysOne_iter_time (k : Nat) (d : DateT) :
    (addDaysOne^[k] d).hour = d.hour ∧ (addDaysOne^[k] d).minute = d.minute ∧
      (addDaysOne^[k] d).sec = d.sec ∧ (addDaysOne^[k] d).ms = d.ms := by
  induction k generalizing d with
  | zero => simp
  | succ n ih =>
    rw [Function.iterate_succ_apply]
    obtain ⟨h1, h2, h3, h4⟩ := ih (addDaysOne d)
    obtain ⟨g1, g2, g3, g4⟩ := addDaysOne_time d
    exact ⟨h1.trans g1, h2.trans g2, h3.trans g3, h4.trans g4⟩

theorem subDaysOne_iter_time (k : Nat) (d : DateT) :
    (subDaysOne^[k] d).hour = d.hour ∧ (subDaysOne^[k] d).minute = d.minute ∧
      (subDaysOne^[k] d).sec = d.sec ∧ (subDaysOne^[k] d).ms = d.ms := by
  induction k generalizing d with
  | zero => simp
  | succ n ih =>
    rw [Function.iterate_succ_apply]
    obtain ⟨h1, h2, h3, h4⟩ := ih (subDaysOne d)
    obtain ⟨g1, g2, g3, g4⟩ := subDaysOne_time (d := d)
    exact ⟨h1.trans g1, h2.trans g2, h3.trans g3, h4.trans g4⟩

theorem addDaysI_time (d : DateT) (n : Int) :
    (addDaysI d n).hour = d.hour ∧ (addDaysI d n).minute = d.minute ∧
      (addDaysI d n).sec = d.sec ∧ (addDaysI d n).ms = d.ms := by
  unfold addDaysI
  split
  · exact addDaysOne_iter_time _ d
  · exact subDaysOne_iter_time _ d

@[simp] theorem addDaysI_sec (d : DateT) (n : Int) : (addDaysI d n).sec = d.sec :=
  (addDaysI_time d n).2.2.1

@[simp] theorem addDaysI_ms (d : DateT) (n : Int) : (addDaysI d n).ms = d.ms :=
  (addDaysI_time d n).2.2.2

@[simp] theorem setMinutesJS_sec (d : DateT) (m : Int) : (setMinutesJS d m).sec = d.sec := by
  unfold setMinutesJS; simp

@[simp] theorem setMinutesJS_ms (d : DateT) (m : Int) : (setMinutesJS d m).ms = d.ms := by
  unfold setMinutesJS; simp

@[simp] theorem setHoursJS_sec (d : DateT) (h : Int) : (setHoursJS d h).sec = d.sec := by
  unfold setHoursJS; simp

@[simp] theorem setHoursJS_ms (d : DateT) (h : Int) : (setHoursJS d h).ms = d.ms := by
  unfold setHoursJS; simp

@[simp] theorem setDateJS_sec (d : DateT) (n : Int) : (setDateJS d n).sec = d.sec := by
  unfold setDateJS; simp

@[simp] theorem setDateJS_ms (d : DateT) (n : Int) : (setDateJS d n).ms = d.ms := by
  unfold setDateJS; simp

@[simp] theorem setMonthJS_sec (d : DateT) (M : Int) : (setMonthJS d M).sec = d.sec := by
  unfold setMonthJS; simp

@[simp] theorem setMonthJS_ms (d : DateT) (M : Int) : (setMonthJS d M).ms = d.ms := by
  unfold setMonthJS; simp

@[simp] theorem setFullYearJS_sec (d : DateT) (y : Int) : (setFullYearJS d y).sec = d.sec := by
  unfold setFullYearJS; simp

@[simp] theorem setFullYearJS_ms (d : DateT) (y : Int) : (setFullYearJS d y).ms = d.ms := by
  unfold setFullYearJS; simp

@[simp] theorem ite_sec (c : Prop) [Decidable c] (a b : DateT) :
    (if c then a else b).sec = if c then a.sec else b.sec :=
  apply_ite DateT.sec c a b

@[simp] theorem ite_ms (c : Prop) [Decidable c] (a b : DateT) :
    (if c then a else b).ms = if c then a.ms else b.ms :=
  apply_ite DateT.ms c a b

/-- Both break results and continuation dates of one day-loop iteration keep the
seconds and milliseconds of the incoming date. -/
theorem dayLoopStep_sec_ms {gas : Nat} {E : CronExpression} {dA dB : Bool}
    {fv : Option Int} {skip : Bool} {nd : DateT}
    {out : Sum (Option DateT) (Bool × DateT)}
    (h : dayLoopStep gas E dA dB fv skip nd = out) :
    (∀ r, out = Sum.inl (some r) → r.sec = nd.sec ∧ r.ms = nd.ms) ∧
    (∀ sk nd2, out = Sum.inr (sk, nd2) → nd2.sec = nd.sec ∧ nd2.ms = nd.ms) := by
  subst h
  simp only [dayLoopStep]
  generalize hgen : setMinutesJS (setHoursJS (if !skip then addDaysI nd 1 else nd) 0) 0 = x
  have hxs : x.sec = nd.sec := by rw [← hgen]; simp
  have hxm : x.ms = nd.ms := by rw [← hgen]; simp
  cases hmf : isFieldMatch x.month E.month .month x
  · -- month mismatch: month skip or divergence
    simp only [hmf, Bool.not_false, if_true]
    cases hg : getNextMatchingMonth gas (if x.month + 1 > 12 then 1 else x.month + 1)
        E.month with
    | none =>
      constructor
      · intro r hr; simp at hr
      · intro sk nd2 hr; simp at hr
    | some p =>
      obtain ⟨nm, wr⟩ := p
      constructor
      · intro r hr; simp at hr
      · intro sk nd2 hr
        simp only [Sum.inr.injEq, Prod.mk.injEq] at hr
        rw [← hr.2]
        constructor
        · simp [hxs]
        · simp [hxm]
  · -- month matches: the three day checks
    simp only [hmf, Bool.not_true, Bool.false_eq_true, if_false]
    cases dA <;> cases dB <;>
      simp only [Bool.and_self, Bool.and_true, Bool.true_and, Bool.and_false,
        Bool.false_and, Bool.false_eq_true, Bool.true_eq_false, if_true, if_false,
        ite_true, ite_false]
    · -- dA = false, dB = false: OR of the two day conditions
      cases hb : (isFieldMatch x.day E.day_of_month .day_of_month x ||
          isFieldMatch (weekdayD x) E.day_of_week .day_of_week x) <;>
        simp only [hb, Bool.false_eq_true, if_false, if_true]
      · refine ⟨fun r hr => by simp at hr, fun sk nd2 hr => ?_⟩
        simp only [Sum.inr.injEq, Prod.mk.injEq] at hr
        rw [← hr.2]
        exact ⟨by simp [hxs], by simp [hxm]⟩
      · refine ⟨fun r hr => ?_, fun sk nd2 hr => by simp at hr⟩
        simp only [Sum.inl.injEq, Option.some.injEq] at hr
        subst hr
        exact ⟨hxs, hxm⟩
    · -- dA = false, dB = true: day-of-month check with the first-valid-day jump
      cases hb : isFieldMatch x.day E.day_of_month .day_of_month x <;>
        simp only [hb, Bool.false_eq_true, if_false, if_true]
      · cases fv with
        | none =>
          refine ⟨fun r hr => by simp at hr, fun sk nd2 hr => ?_⟩
          simp only [Sum.inr.injEq, Prod.mk.injEq] at hr
          rw [← hr.2]
          exact ⟨by simp [hxs], by simp [hxm]⟩
        | some fvd =>
          by_cases h1 : x.day < fvd
          · by_cases h2 : fvd ≤ daysInMonthYM x.year x.month
            · simp only [h1, h2, if_true, if_false, ite_true]
              refine ⟨fun r hr => by simp at hr, fun sk nd2 hr => ?_⟩
              simp only [Sum.inr.injEq, Prod.mk.injEq] at hr
              rw [← hr.2]
              exact ⟨by simp [hxs], by simp [hxm]⟩
            · simp only [h1, h2, if_true, if_false, ite_true, ite_false]
              refine ⟨fun r hr => by simp at hr, fun sk nd2 hr => ?_⟩
              simp only [Sum.inr.injEq, Prod.mk.injEq] at hr
              rw [← hr.2]
              exact ⟨by simp [hxs], by simp [hxm]⟩
          · simp only [h1, if_false, ite_false]
            refine ⟨fun r hr => by simp at hr, fun sk nd2 hr => ?_⟩
            simp only [Sum.inr.injEq, Prod.mk.injEq] at hr
            rw [← hr.2]
            exact ⟨by simp [hxs], by simp [hxm]⟩
      · refine ⟨fun r hr => ?_, fun sk nd2 hr => by simp at hr⟩
        simp only [Sum.inl.injEq, Option.some.injEq] at hr
        subst hr
        exact ⟨hxs, hxm⟩
    · -- dA = true, dB = false: day-of-week check
      cases hb : isFieldMatch (weekdayD x) E.day_of_week .day_of_week x <;>
        simp only [hb, Bool.false_eq_true, if_false, if_true]
      · refine ⟨fun r hr => by simp at hr, fun sk nd2 hr => ?_⟩
        simp only [Sum.inr.injEq, Prod.mk.injEq] at hr
        rw [← hr.2]
        exact ⟨by simp [hxs], by simp [hxm]⟩
      · refine ⟨fun r hr => ?_, fun sk nd2 hr => by simp at hr⟩
        simp only [Sum.inl.injEq, Option.some.injEq] at hr
        subst hr
        exact ⟨hxs, hxm⟩
    · -- dA = true, dB = true: any day matches
      refine ⟨fun r hr => ?_, fun sk nd2 hr => by simp at hr⟩
      simp only [Sum.inl.injEq, Option.some.injEq] at hr
      subst hr
      exact ⟨hxs, hxm⟩
/-- The day loop never touches seconds or milliseconds. -/
theorem dayLoopF_sec_ms (gas : Nat) (E : CronExpression) (dA dB : Bool)
    (fv : Option Int) :
    ∀ (fuel : Nat) (skip : Bool) (nd r : DateT),
      dayLoopF gas E dA dB fv fuel skip nd = some r →
        r.sec = nd.sec ∧ r.ms = nd.ms := by
  intro fuel
  induction fuel with
  | zero =>
    intro skip nd r h
    unfold dayLoopF at h
    cases h
    exact ⟨rfl, rfl⟩
  | succ n ih =>
    intro skip nd r h
    unfold dayLoopF at h
    cases hstep : dayLoopStep gas E dA dB fv skip nd with
    | inl r0 =>
      rw [hstep] at h
      dsimp only at h
      subst h
      exact (dayLoopStep_sec_ms hstep).1 r rfl
    | inr p =>
      obtain ⟨sk, nd2⟩ := p
      rw [hstep] at h
      dsimp only at h
      obtain ⟨h1, h2⟩ := ih sk nd2 r h
      obtain ⟨g1, g2⟩ := (dayLoopStep_sec_ms hstep).2 sk nd2 rfl
      exact ⟨h1.trans g1, h2.trans g2⟩

/-- The same-day fast path never touches seconds or milliseconds. -/
theorem sameDayAdvance_sec_ms {c nd : DateT} {E : CronExpression}
    (hs : nd.sec = 0) (hm : nd.ms = 0) {out : Sum DateT DateT}
    (h : sameDayAdvance c nd E = out) :
    (∀ r, out = Sum.inl r → r.sec = 0 ∧ r.ms = 0) ∧
    (∀ r, out = Sum.inr r → r.sec = 0 ∧ r.ms = 0) := by
  subst h
  simp only [sameDayAdvance]
  by_cases h1 : getNextValidField c.minute E.minute 0 59 true > c.minute
  · simp only [if_pos h1]
    refine ⟨fun r hr => ?_, fun r hr => by cases hr⟩
    injection hr with hr
    subst hr
    exact ⟨by simp [hs], by simp [hm]⟩
  · simp only [if_neg h1]
    by_cases h2 : getNextValidField c.minute E.minute 0 59 true < c.minute
    · simp only [if_pos h2, decide_eq_true h2, Bool.true_and]
      cases hd : ((setMinutesJS (setHoursJS nd (nd.hour + 1))
          (getNextValidField c.minute E.minute 0 59 true)).day == nd.day) <;>
        simp only [hd, Bool.false_eq_true, if_false, if_true]
      · by_cases h3 : getNextValidField c.hour E.hour 0 23 true > c.hour
        · simp only [if_pos h3]
          refine ⟨fun r hr => ?_, fun r hr => by cases hr⟩
          injection hr with hr
          subst hr
          exact ⟨by simp [hs], by simp [hm]⟩
        · simp only [if_neg h3]
          refine ⟨fun r hr => (by cases hr), fun r hr => ?_⟩
          injection hr with hr
          subst hr
          exact ⟨by simp [hs], by simp [hm]⟩
      · refine ⟨fun r hr => ?_, fun r hr => by cases hr⟩
        injection hr with hr
        subst hr
        exact ⟨by simp [hs], by simp [hm]⟩
    · simp only [if_neg h2, decide_eq_false h2, Bool.false_and, Bool.false_eq_true,
        if_false]
      by_cases h3 : getNextValidField c.hour E.hour 0 23 true > c.hour
      · simp only [if_pos h3]
        refine ⟨fun r hr => ?_, fun r hr => by cases hr⟩
        injection hr with hr
        subst hr
        exact ⟨by simp [hs], by simp [hm]⟩
      · simp only [if_neg h3]
        refine ⟨fun r hr => (by cases hr), fun r hr => ?_⟩
        injection hr with hr
        subst hr
        exact ⟨hs, hm⟩

/-- Every advance result has zero seconds and milliseconds: the advance clears them
right after adding the minute, and no later operation touches them. -/
theorem getNextValidDate_sec_ms {gas : Nat} {c r : DateT} {E : CronExpression}
    (h : getNextValidDate gas c E = some r) : r.sec = 0 ∧ r.ms = 0 := by
  simp only [getNextValidDate] at h
  split at h
  · cases h; exact ⟨rfl, rfl⟩
  · split at h
    · rename_i v hv
      injection h with h
      subst h
      -- the same-day section returned Sum.inl v
      split at hv
      · exact (sameDayAdvance_sec_ms rfl rfl hv).1 v rfl
      · cases hv
    · rename_i nd hnd
      split at h
      · cases h
      · rename_i r2 heq
        injection h with h
        subst h
        have h2 := dayLoopF_sec_ms _ _ _ _ _ _ false nd r2 heq
        have h3 : nd.sec = 0 ∧ nd.ms = 0 := by
          split at hnd
          · exact (sameDayAdvance_sec_ms rfl rfl hnd).2 nd rfl
          · injection hnd with hnd
            subst hnd
            exact ⟨rfl, rfl⟩
        refine ⟨by simp [h2.1, h3.1], by simp [h2.2, h3.2]⟩

/-- Loop invariant for C4: every emitted instant either came from an advance (seconds
and milliseconds zero) or is the milliseconds-cleared `startAt` itself. -/
theorem gfmAux_sec_ms (gas : Nat) (E : CronExpression) (mv : Option (DateT → Bool))
    (mc : Int) (st : DateT) :
    ∀ (fuel : Nat) (cur : DateT) (acc ms : List DateT),
      ((cur.sec = 0 ∧ cur.ms = 0) ∨ cur = { st with ms := 0 }) →
      (∀ d ∈ acc, d.ms = 0 ∧ (d.sec = 0 ∨ d = { st with ms := 0 })) →
      getFutureMatchesAux gas E mv mc fuel cur acc = some ms →
      ∀ d ∈ ms, d.ms = 0 ∧ (d.sec = 0 ∨ d = { st with ms := 0 }) := by
  intro fuel
  induction fuel with
  | zero =>
    intro cur acc ms h1 h2 h3
    unfold getFutureMatchesAux at h3
    split at h3 <;> (cases h3; exact h2)
  | succ n ih =>
    intro cur acc ms h1 h2 h3
    unfold getFutureMatchesAux at h3
    split at h3
    · split at h3
      · rename_i heq
        exact absurd heq (Nat.succ_ne_zero n)
      · rename_i f heq
        obtain rfl : f = n := by omega
        cases hnd : getNextValidDate gas cur E with
        | none => rw [hnd] at h3; simp at h3
        | some nd =>
          rw [hnd] at h3
          dsimp only at h3
          refine ih nd _ ms (Or.inl (getNextValidDate_sec_ms hnd)) ?_ h3
          intro d hd
          have hd' : d ∈ acc ∨ d = cur := by
            by_cases hT : isTimeMatch E cur = true
            · rw [if_pos hT] at hd
              split at hd
              · rcases List.mem_append.mp hd with hda | hdc
                · exact Or.inl hda
                · simp at hdc
                  exact Or.inr hdc
              · exact Or.inl hd
            · rw [if_neg hT] at hd
              exact Or.inl hd
          rcases hd' with hda | hdc
          · exact h2 d hda
          · subst hdc
            rcases h1 with ⟨hs, hm⟩ | hst
            · exact ⟨hm, Or.inl hs⟩
            · subst hst
              exact ⟨by simp, Or.inr rfl⟩
    · cases h3; exact h2

/-- C4 as amended: `getFutureMatches` clears only the milliseconds of `startAt`;
every emitted instant has milliseconds 0, and every emitted instant is either on a
whole-minute boundary (seconds 0 as well) or is exactly the milliseconds-cleared
`startAt` — so only the first emission can carry `startAt`'s seconds. -/
theorem matches_millis_cleared (gas : Nat) (now : DateT) (E : CronExpression)
    (opts : MatchOptions) (ms : List DateT)
    (h : getFutureMatches gas now E opts = some ms) :
    ∀ d ∈ ms, d.ms = 0 ∧
      (d.sec = 0 ∨ d = { opts.startAt.getD now with ms := 0 }) := by
  unfold getFutureMatches at h
  exact gfmAux_sec_ms gas E opts.matchValidator (opts.matchCount.getD 2)
    (opts.startAt.getD now) ((opts.maxLoopCount.getD 1000).toNat)
    { opts.startAt.getD now with ms := 0 } [] ms (Or.inr rfl) (by simp) h

/-- Witness for `matches_millis_cleared` on the run of `first_match_keeps_seconds`. -/
theorem matches_millis_cleared_w :
    (⟨2024,1,1,12,30,45,0⟩ : DateT).ms = 0 ∧
      ((⟨2024,1,1,12,30,45,0⟩ : DateT).sec = 0 ∨
        (⟨2024,1,1,12,30,45,0⟩ : DateT) =
          { (⟨2024,1,1,12,30,45,123⟩ : DateT) with ms := 0 }) :=
  matches_millis_cleared 0 ⟨2024,1,1,0,0,0,0⟩ exprEveryMinute
    { startAt := some ⟨2024,1,1,12,30,45,123⟩, matchCount := some 1 }
    [⟨2024,1,1,12,30,45,0⟩] (by rfl) ⟨2024,1,1,12,30,45,0⟩
    (List.mem_singleton.mpr rfl)

/-! ## Heap model for the frame property (C10)

`Date`/`TZDate` objects are mutable in JavaScript; the functions above model them by
value.  To state that `getFutureMatches` never mutates the caller's `startAt` object,
the two functions that touch `Date` objects are transcribed once more over an explicit
heap of `Date` cells (`List DateT`, refs are indices): `new Date(x)` / `new TZDate(x, tz)`
/ `addDays` allocate fresh cells, and every `Date.prototype` setter becomes a write to
the cell it is called on.  The expression and the options are plain records here as in
the source no statement ever assigns to them or to their arrays (`validMonths` in
`getNextMatchingMonth` is built fresh by `push` before it is sorted), and the
`matchValidator` callback is a pure predicate. -/

def date0 : DateT := ⟨1970, 1, 1, 0, 0, 0, 0⟩

def hget (h : List DateT) (r : Nat) : DateT := h.getD r date0

def hset (h : List DateT) (r : Nat) (v : DateT) : List DateT := h.set r v

/-- `new Date(v)` / `new TZDate(v, tz)` / a `date-fns` result: a fresh cell. -/
def halloc (h : List DateT) (v : DateT) : Nat × List DateT := (h.length, h ++ [v])

/-- The body of one heap-threaded day-loop iteration after the `addDays` step
(`nd` is the cell `nextDate` currently points to). -/
def dayLoopStepHCore (gas : Nat) (E : CronExpression)
    (isDayOfMonthAny isDayOfWeekAny : Bool) (firstValidDayOfMonth : Option Int)
    (nd : Nat) (h : List DateT) :
    Sum (Option (Nat × List DateT)) (Bool × Nat × List DateT) :=
  let h := hset h nd (setHoursJS (hget h nd) 0)
  let h := hset h nd (setMinutesJS (hget h nd) 0)
  let dayOfMonth := (hget h nd).day
  let dayOfWeek := weekdayD (hget h nd)
  let month := (hget h nd).month
  if !(isFieldMatch month E.month .month (hget h nd)) then
    match getNextMatchingMonth gas (if month + 1 > 12 then 1 else month + 1) E.month with
    | none => Sum.inl none
    | some (nextMonth, wrapped) =>
      let h := if wrapped || nextMonth < month then
          hset h nd (setFullYearJS (hget h nd) ((hget h nd).year + 1)) else h
      let h := hset h nd (setMonthJS (hget h nd) (nextMonth - 1))
      let h := hset h nd (setDateJS (hget h nd) 1)
      Sum.inr (true, nd, h)
  else if isDayOfMonthAny && isDayOfWeekAny then Sum.inl (some (nd, h))
  else if isDayOfWeekAny then
    if isFieldMatch dayOfMonth E.day_of_month .day_of_month (hget h nd) then
      Sum.inl (some (nd, h))
    else match firstValidDayOfMonth with
      | some fvd =>
        if dayOfMonth < fvd then
          if fvd ≤ daysInMonthYM (hget h nd).year (hget h nd).month then
            Sum.inr (true, nd, hset h nd (setDateJS (hget h nd) fvd))
          else Sum.inr (false, nd, h)
        else Sum.inr (false, nd, h)
      | none => Sum.inr (false, nd, h)
  else if isDayOfMonthAny then
    if isFieldMatch dayOfWeek E.day_of_week .day_of_week (hget h nd) then
      Sum.inl (some (nd, h))
    else Sum.inr (false, nd, h)
  else
    if isFieldMatch dayOfMonth E.day_of_month .day_of_month (hget h nd) ||
       isFieldMatch dayOfWeek E.day_of_week .day_of_week (hget h nd) then
      Sum.inl (some (nd, h))
    else Sum.inr (false, nd, h)

/-- One day-loop iteration of `getNextValidDate`, heap-threaded (same control flow as
`dayLoopStep`; `addDays` allocates, the setters write the `nextDate` cell). -/
def dayLoopStepH (gas : Nat) (E : CronExpression)
    (isDayOfMonthAny isDayOfWeekAny : Bool) (firstValidDayOfMonth : Option Int)
    (skipAddDay : Bool) (nd0 : Nat) (h0 : List DateT) :
    Sum (Option (Nat × List DateT)) (Bool × Nat × List DateT) :=
  let p := if !skipAddDay then halloc h0 (addDaysI (hget h0 nd0) 1) else (nd0, h0)
  dayLoopStepHCore gas E isDayOfMonthAny isDayOfWeekAny firstValidDayOfMonth p.1 p.2

def dayLoopH (gas : Nat) (E : CronExpression)
    (isDayOfMonthAny isDayOfWeekAny : Bool) (firstValidDayOfMonth : Option Int) :
    Nat → Bool → Nat → List DateT → Option (Nat × List DateT)
  | 0, _, nd, h => some (nd, h)
  | fuel + 1, skipAddDay, nd, h =>
    match dayLoopStepH gas E isDayOfMonthAny isDayOfWeekAny firstValidDayOfMonth
        skipAddDay nd h with
    | Sum.inl r => r
    | Sum.inr (sk, nd2, h2) =>
      dayLoopH gas E isDayOfMonthAny isDayOfWeekAny firstValidDayOfMonth fuel sk nd2 h2

/-- The same-day fast path, heap-threaded (`c` is the value read from the
`currentDate` cell; every write targets the `nextDate` cell `nd`; the day captured
before the wrap check is read from the cell before any time write). -/
def sameDayAdvanceH (c : DateT) (nd : Nat) (E : CronExpression) (h : List DateT) :
    Sum (List DateT) (List DateT) :=
  let currentDayOfMonth := (hget h nd).day
  let currentMinute := c.minute
  let nextMinute := getNextValidField currentMinute E.minute 0 59 true
  if nextMinute > currentMinute then
    Sum.inl (hset h nd (setMinutesJS (hget h nd) nextMinute))
  else
    let h2 :=
      if nextMinute < currentMinute then
        let ha := hset h nd (setHoursJS (hget h nd) ((hget h nd).hour + 1))
        hset ha nd (setMinutesJS (hget ha nd) nextMinute)
      else h
    if nextMinute < currentMinute && (hget h2 nd).day == currentDayOfMonth then
      Sum.inl h2
    else
      let currentHour := c.hour
      let nextHour := getNextValidField currentHour E.hour 0 23 true
      if nextHour > currentHour then
        let h3 := hset h2 nd (setHoursJS (hget h2 nd) nextHour)
        Sum.inl (hset h3 nd (setMinutesJS (hget h3 nd)
          (getFirstValidFieldValue E.minute 0 59)))
      else Sum.inr h2

/-- `getNextValidDate`, heap-threaded: it clones `currentDate` into a fresh cell and
every mutation it performs targets that cell (or a cell freshly allocated by
`addDays`); the `currentDate` cell is only read. -/
def cloneForAdvanceH (cur : Nat) (h0 : List DateT) : List DateT :=
  let p := halloc h0 (hget h0 cur)
  let nd := p.1
  let h := p.2
  let h := hset h nd (setMinutesJS (hget h nd) ((hget h nd).minute + 1))
  let h := hset h nd { hget h nd with sec := 0 }
  hset h nd { hget h nd with ms := 0 }

def getNextValidDateH (gas : Nat) (cur : Nat) (E : CronExpression) (h0 : List DateT) :
    Option (Nat × List DateT) :=
  let nd := h0.length                   -- the cell allocated by the clone
  let h := cloneForAdvanceH cur h0
  let isDayOfMonthAny := E.day_of_month.all || E.day_of_month.«omit»
  let isDayOfWeekAny := E.day_of_week.all || E.day_of_week.«omit»
  let isEveryMinute := E.minute.all && E.hour.all &&
    isDayOfMonthAny && E.month.all && isDayOfWeekAny
  if isEveryMinute then some (nd, h)
  else
    let dayMatches := dayMatchesB E isDayOfMonthAny isDayOfWeekAny (hget h nd)
    let afterSameDay : Sum (List DateT) (List DateT) :=
      if dayMatches then sameDayAdvanceH (hget h0 cur) nd E h
      else Sum.inr h
    match afterSameDay with
    | Sum.inl h2 => some (nd, h2)
    | Sum.inr h2 =>
      let firstValidDayOfMonth :=
        if isDayOfWeekAny then getFirstValidDayOfMonth E.day_of_month else none
      match dayLoopH gas E isDayOfMonthAny isDayOfWeekAny firstValidDayOfMonth
          (366 * 4) false nd h2 with
      | none => none
      | some (nd2, h3) =>
        let h4 := hset h3 nd2 (setHoursJS (hget h3 nd2) (getFirstValidFieldValue E.hour 0 23))
        some (nd2, hset h4 nd2 (setMinutesJS (hget h4 nd2)
          (getFirstValidFieldValue E.minute 0 59)))

/-- The emission step of the search loop: when the cursor matches (and the optional
validator accepts), `new Date(currentDate.toISOString())` allocates a fresh cell whose
ref is appended to the accumulated refs. -/
def emitH (E : CronExpression) (mv : Option (DateT → Bool)) (cur : Nat)
    (acc : List Nat) (h : List DateT) : List Nat × List DateT :=
  if isTimeMatch E (hget h cur) then
    if (match mv with | none => true | some f => f (hget h cur)) then
      (acc ++ [(halloc h (hget h cur)).1], (halloc h (hget h cur)).2)
    else (acc, h)
  else (acc, h)

/-- The search loop of `getFutureMatches`, heap-threaded: each emission
(`new Date(currentDate.toISOString())`) is a fresh cell whose ref is accumulated. -/
def getFutureMatchesAuxH (gas : Nat) (E : CronExpression)
    (mv : Option (DateT → Bool)) (matchCount : Int) :
    Nat → Nat → List Nat → List DateT → Option (List Nat × List DateT)
  | fuel, cur, acc, h =>
    if (acc.length : Int) < matchCount then
      match fuel with
      | 0 => some (acc, h)
      | fuel + 1 =>
        match getNextValidDateH gas cur E (emitH E mv cur acc h).2 with
        | none => none
        | some (nd, h2) =>
          getFutureMatchesAuxH gas E mv matchCount fuel nd (emitH E mv cur acc h).1 h2
    else some (acc, h)

/-- `getFutureMatches`, heap-threaded.  `startAt` is the caller's object, passed as
the ref `startAtRef`; `const startTime = new Date(startAt)` clones it, and only the
clone gets `setMilliseconds(0)`. -/
def getFutureMatchesH (gas : Nat) (E : CronExpression) (options : MatchOptions)
    (startAtRef : Nat) (h0 : List DateT) : Option (List Nat × List DateT) :=
  let matchCount := options.matchCount.getD 2
  let maxLoopCount := options.maxLoopCount.getD 1000
  let p := halloc h0 (hget h0 startAtRef)
  let st := p.1
  let h := p.2
  let h := hset h st { hget h st with ms := 0 }
  let q := halloc h (hget h st)
  getFutureMatchesAuxH gas E options.matchValidator matchCount
    maxLoopCount.toNat q.1 [] q.2

/-- Heap `h'` extends `h` leaving every cell below the watermark `L` unchanged. -/
def framePres (L : Nat) (h h' : List DateT) : Prop :=
  h.length ≤ h'.length ∧ ∀ r, r < L → hget h' r = hget h r

theorem framePres_refl (L : Nat) (h : List DateT) : framePres L h h :=
  ⟨le_refl _, fun _ _ => rfl⟩

theorem framePres_trans {L : Nat} {h1 h2 h3 : List DateT}
    (a : framePres L h1 h2) (b : framePres L h2 h3) : framePres L h1 h3 :=
  ⟨a.1.trans b.1, fun r hr => (b.2 r hr).trans (a.2 r hr)⟩

theorem framePres_halloc {L : Nat} {h : List DateT} (v : DateT) (hL : L ≤ h.length) :
    framePres L h (halloc h v).2 := by
  refine ⟨by simp [halloc], fun r hr => ?_⟩
  unfold halloc hget
  exact List.getD_append _ _ _ _ (lt_of_lt_of_le hr hL)

theorem framePres_hset {L : Nat} {h : List DateT} {r : Nat} (v : DateT) (hr : L ≤ r) :
    framePres L h (hset h r v) := by
  refine ⟨by simp [hset], fun s hs => ?_⟩
  unfold hset hget
  have hne : s ≠ r := by omega
  simp [List.getD_eq_getElem?_getD, List.getElem?_set_ne (fun a => hne a.symm)]

theorem framePres_snoc {L : Nat} {h : List DateT} (v : DateT) (hL : L ≤ h.length) :
    framePres L h (h ++ [v]) := by
  refine ⟨by simp, fun r hr => ?_⟩
  unfold hget
  exact List.getD_append _ _ _ _ (lt_of_lt_of_le hr hL)

theorem framePres_ite {L : Nat} {h h1 h2 : List DateT} {c : Prop} [Decidable c]
    (a : framePres L h h1) (b : framePres L h h2) :
    framePres L h (if c then h1 else h2) := by
  split
  · exact a
  · exact b

/-- The frame conclusion for a day-loop step outcome, relative to base heap `h`. -/
def frameOutH (L : Nat) (h : List DateT) :
    Sum (Option (Nat × List DateT)) (Bool × Nat × List DateT) → Prop
  | Sum.inl none => True
  | Sum.inl (some (r, h')) => framePres L h h' ∧ L ≤ r
  | Sum.inr (_, nd2, h') => framePres L h h' ∧ L ≤ nd2

/-- The frame conclusion for an advance outcome, relative to base heap `h`. -/
def frameOptH (L : Nat) (h : List DateT) : Option (Nat × List DateT) → Prop
  | none => True
  | some (r, h') => framePres L h h' ∧ L ≤ r

/-- The frame conclusion for a same-day outcome, relative to base heap `h`. -/
def frameSumH (L : Nat) (h : List DateT) : Sum (List DateT) (List DateT) → Prop
  | Sum.inl h' => framePres L h h'
  | Sum.inr h' => framePres L h h'

theorem frameOutH_mono {L : Nat} {h0 h : List DateT}
    {out : Sum (Option (Nat × List DateT)) (Bool × Nat × List DateT)}
    (hp : framePres L h0 h) (ho : frameOutH L h out) : frameOutH L h0 out := by
  match out with
  | Sum.inl none => trivial
  | Sum.inl (some (r, h')) => exact ⟨framePres_trans hp ho.1, ho.2⟩
  | Sum.inr (sk, nd2, h') => exact ⟨framePres_trans hp ho.1, ho.2⟩

/-- Every write of the same-day fast path targets the `nextDate` cell. -/
theorem sameDayAdvanceH_frame {L : Nat} {c : DateT} {nd : Nat} {E : CronExpression}
    {h : List DateT} (hnd : L ≤ nd) :
    frameSumH L h (sameDayAdvanceH c nd E h) := by
  simp only [sameDayAdvanceH]
  repeat' split
  all_goals simp only [frameSumH]
  all_goals
    repeat' first
      | exact framePres_refl _ _
      | refine framePres_trans ?_ (framePres_hset _ hnd)

/-- Every write of a day-loop iteration body targets the `nextDate` cell. -/
theorem dayLoopStepHCore_frame {L gas : Nat} {E : CronExpression} {dA dB : Bool}
    {fv : Option Int} {nd : Nat} {h : List DateT} (hnd : L ≤ nd) :
    frameOutH L h (dayLoopStepHCore gas E dA dB fv nd h) := by
  simp only [dayLoopStepHCore]
  repeat' split
  all_goals simp only [frameOutH]
  all_goals refine ⟨?_, hnd⟩
  all_goals
    repeat' first
      | exact framePres_refl _ _
      | refine framePres_trans ?_ (framePres_hset _ hnd)

/-- A full day-loop iteration preserves the heap below the watermark (`addDays`
allocates a fresh cell, everything else writes the `nextDate` cell). -/
theorem dayLoopStepH_frame (L gas : Nat) (E : CronExpression) (dA dB : Bool)
    (fv : Option Int) (skip : Bool) (nd0 : Nat) (h0 : List DateT)
    (hL : L ≤ h0.length) (hnd : L ≤ nd0) :
    frameOutH L h0 (dayLoopStepH gas E dA dB fv skip nd0 h0) := by
  unfold dayLoopStepH
  cases skip
  · exact frameOutH_mono (framePres_snoc _ hL) (dayLoopStepHCore_frame hL)
  · exact dayLoopStepHCore_frame hnd

theorem dayLoopH_frame {L gas : Nat} {E : CronExpression} {dA dB : Bool}
    {fv : Option Int} :
    ∀ (fuel : Nat) (skip : Bool) (nd : Nat) (h : List DateT) (r : Nat)
      (h' : List DateT), L ≤ h.length → L ≤ nd →
      dayLoopH gas E dA dB fv fuel skip nd h = some (r, h') →
      framePres L h h' ∧ L ≤ r := by
  intro fuel
  induction fuel with
  | zero =>
    intro skip nd h r h' hL hnd heq
    unfold dayLoopH at heq
    simp only [Option.some.injEq, Prod.mk.injEq] at heq
    obtain ⟨h1, h2⟩ := heq
    subst h1
    subst h2
    exact ⟨framePres_refl _ _, hnd⟩
  | succ n ih =>
    intro skip nd h r h' hL hnd heq
    unfold dayLoopH at heq
    have hfo := dayLoopStepH_frame L gas E dA dB fv skip nd h hL hnd
    cases hout : dayLoopStepH gas E dA dB fv skip nd h with
    | inl ro =>
      rw [hout] at heq hfo
      dsimp only at heq
      subst heq
      exact hfo
    | inr t =>
      obtain ⟨sk, nd2, h2⟩ := t
      rw [hout] at heq hfo
      dsimp only at heq
      obtain ⟨hp, hnd2⟩ := hfo
      obtain ⟨hp2, hr⟩ := ih sk nd2 h2 r h' (le_trans hL hp.1) hnd2 heq
      exact ⟨framePres_trans hp hp2, hr⟩

/-- The clone-and-bump preamble of the advance only appends one fresh cell. -/
theorem cloneForAdvanceH_frame {L : Nat} {cur : Nat} {h0 : List DateT}
    (hL : L ≤ h0.length) : framePres L h0 (cloneForAdvanceH cur h0) := by
  simp only [cloneForAdvanceH, halloc]
  repeat' first
    | exact framePres_snoc _ hL
    | refine framePres_trans ?_ (framePres_hset _ hL)

/-- The heap-threaded advance only reads the `currentDate` cell; every cell below the
watermark is untouched, and the returned ref is a fresh cell. -/
theorem getNextValidDateH_frame {L gas : Nat} {cur : Nat} {E : CronExpression}
    {h0 : List DateT} (hL : L ≤ h0.length) :
    frameOptH L h0 (getNextValidDateH gas cur E h0) := by
  have hP : framePres L h0 (cloneForAdvanceH cur h0) := cloneForAdvanceH_frame hL
  simp only [getNextValidDateH]
  split
  · exact ⟨hP, hL⟩
  · split
    · -- the same-day section returned an early result
      rename_i h2 heq
      split at heq
      · have hsd := @sameDayAdvanceH_frame L (hget h0 cur) h0.length E
          (cloneForAdvanceH cur h0) hL
        rw [heq] at hsd
        simp only [frameSumH] at hsd
        exact ⟨framePres_trans hP hsd, hL⟩
      · cases heq
    · -- fell through to the day loop
      rename_i h2 heq
      have hch : framePres L h0 h2 := by
        split at heq
        · have hsd := @sameDayAdvanceH_frame L (hget h0 cur) h0.length E
            (cloneForAdvanceH cur h0) hL
          rw [heq] at hsd
          simp only [frameSumH] at hsd
          exact framePres_trans hP hsd
        · injection heq with heq2
          rw [← heq2]
          exact hP
      split
      · trivial
      · rename_i nd2 h3 heq2
        obtain ⟨hp3, hnd2⟩ := dayLoopH_frame _ _ _ _ _ _ (le_trans hL hch.1) hL heq2
        simp only [frameOptH]
        refine ⟨?_, hnd2⟩
        refine framePres_trans hch (framePres_trans hp3 ?_)
        exact framePres_trans (framePres_hset _ hnd2) (framePres_hset _ hnd2)

/-- The emission step allocates at most one fresh cell and writes nothing. -/
theorem emitH_frame {L : Nat} {E : CronExpression} {mv : Option (DateT → Bool)}
    {cur : Nat} {acc : List Nat} {h : List DateT} (hL : L ≤ h.length) :
    framePres L h (emitH E mv cur acc h).2 := by
  unfold emitH
  split
  · split
    · exact framePres_snoc _ hL
    · exact framePres_refl _ _
  · exact framePres_refl _ _

/-- The search loop never touches a cell below the watermark. -/
theorem getFutureMatchesAuxH_frame {L gas : Nat} {E : CronExpression}
    {mv : Option (DateT → Bool)} {mc : Int} :
    ∀ (fuel cur : Nat) (acc : List Nat) (h : List DateT) (ms : List Nat)
      (h' : List DateT), L ≤ h.length →
      getFutureMatchesAuxH gas E mv mc fuel cur acc h = some (ms, h') →
      framePres L h h' := by
  intro fuel
  induction fuel with
  | zero =>
    intro cur acc h ms h' hL heq
    unfold getFutureMatchesAuxH at heq
    split at heq <;>
      (simp only [Option.some.injEq, Prod.mk.injEq] at heq
       rw [← heq.2]
       exact framePres_refl _ _)
  | succ n ih =>
    intro cur acc h ms h' hL heq
    unfold getFutureMatchesAuxH at heq
    split at heq
    · split at heq
      · rename_i h0eq
        exact absurd h0eq (Nat.succ_ne_zero n)
      · rename_i f hfeq
        obtain rfl : f = n := by omega
        have hemit : framePres L h (emitH E mv cur acc h).2 := emitH_frame hL
        have hadv := @getNextValidDateH_frame L gas cur E (emitH E mv cur acc h).2
          (le_trans hL hemit.1)
        cases hnd : getNextValidDateH gas cur E (emitH E mv cur acc h).2 with
        | none => rw [hnd] at heq; cases heq
        | some p =>
          obtain ⟨nd, h2⟩ := p
          rw [hnd] at heq hadv
          dsimp only at heq
          simp only [frameOptH] at hadv
          have htail := ih nd (emitH E mv cur acc h).1 h2 ms h'
            (le_trans (le_trans hL hemit.1) hadv.1.1) heq
          exact framePres_trans hemit (framePres_trans hadv.1 htail)
    · simp only [Option.some.injEq, Prod.mk.injEq] at heq
      rw [← heq.2]
      exact framePres_refl _ _

/-- `getFutureMatches` (heap-threaded) preserves every caller-visible cell: the
start-time clone, the cursor clones and the emitted copies are all fresh. -/
theorem getFutureMatchesH_frame {L gas : Nat} {E : CronExpression}
    {opts : MatchOptions} {r : Nat} {h0 : List DateT} {ms : List Nat}
    {h' : List DateT} (hL : L ≤ h0.length)
    (heq : getFutureMatchesH gas E opts r h0 = some (ms, h')) :
    framePres L h0 h' := by
  simp only [getFutureMatchesH, halloc] at heq
  refine framePres_trans ?_ (getFutureMatchesAuxH_frame _ _ _ _ _ _ ?_ heq)
  · refine framePres_trans ?_ (framePres_snoc _ ?_)
    · refine framePres_trans ?_ (framePres_hset _ hL)
      exact framePres_snoc _ hL
    · simp only [hset, List.length_set, List.length_append]
      omega
  · simp only [hset, List.length_set, List.length_append, List.length_cons]
    omega

/-- C10: `getFutureMatches` never mutates its inputs.  In the heap transcription
(where `Date` objects are cells and every `Date.prototype` setter of the source is a
cell write) a call that returns leaves every pre-existing cell — in particular the
caller's `startAt` object — bit-for-bit unchanged: the start time is copied into a
fresh cell before its milliseconds are cleared, every advance writes only the fresh
clone `new TZDate(currentDate, …)` (or cells freshly allocated by `addDays`), and
each emission is a fresh copy.  The expression and options are plain records that no
statement of the source assigns to. -/
theorem getFutureMatches_no_mutation (gas : Nat) (E : CronExpression)
    (opts : MatchOptions) (startAtRef : Nat) (h0 : List DateT) (ms : List Nat)
    (h' : List DateT) (href : startAtRef < h0.length)
    (heq : getFutureMatchesH gas E opts startAtRef h0 = some (ms, h')) :
    hget h' startAtRef = hget h0 startAtRef ∧
    ∀ r, r < h0.length → hget h' r = hget h0 r := by
  have hfp := getFutureMatchesH_frame (le_refl h0.length) heq
  exact ⟨hfp.2 _ href, hfp.2⟩

/-- Witness for `getFutureMatches_no_mutation`: a concrete one-match run of
`"* * * * *"` from 10:59 (the heap afterwards holds the untouched `startAt`, the
clone, the cursor, the emitted copy and the advanced cursor). -/
theorem getFutureMatches_no_mutation_w :
    (0 : Nat) < 1 ∧
    hget [⟨2024,1,1,10,59,0,0⟩, ⟨2024,1,1,10,59,0,0⟩, ⟨2024,1,1,10,59,0,0⟩,
        ⟨2024,1,1,10,59,0,0⟩, ⟨2024,1,1,11,0,0,0⟩] 0 =
      hget [⟨2024,1,1,10,59,0,0⟩] 0 :=
  ⟨by decide,
   (getFutureMatches_no_mutation 0
      ⟨{all := true}, {all := true}, {all := true}, {all := true}, {all := true}⟩
      { matchCount := some 1 } 0 [⟨2024,1,1,10,59,0,0⟩] [3]
      [⟨2024,1,1,10,59,0,0⟩, ⟨2024,1,1,10,59,0,0⟩, ⟨2024,1,1,10,59,0,0⟩,
        ⟨2024,1,1,10,59,0,0⟩, ⟨2024,1,1,11,0,0,0⟩]
      (by decide) (by rfl)).1⟩

end Croncheck
